import Mathlib

/-!
Verification development for the `fastfind` directory walker.

The development shallowly embeds the current generation of the walker
(`walk_windows.go`: the windows `Finder.walk`/`Finder._walk` pair and the
unix `Finder.walk`, plus `enumerateDirectory`/`ntQueryDirectory`) and the
driver `main` (the CSV-rendering generation with the `-stat` flag).

Modelling conventions:

* Go strings used as paths and names become `List Char`; error values become
  their `fmt.Errorf` message strings (`String`), with `%w` wrapping rendered
  as string concatenation of the prefix and the wrapped message.
* A directory tree is a value of `FS`/`FSL` (mutually inductive, so that all
  functions over it are kernel-computable).  Each node records the outcomes
  the environment would deliver to the walker at that node: the result of
  `openat`/`openRelativeDirectory` from its parent, of `Fstat` on its own
  handle, of `ReadDir`/`enumerateDirectory` on its own handle, and for
  non-directories the result of `fstatat`.
* `errgroup.TryGo` is modelled by an admission oracle `adm : Name → Bool`
  consulted at the child's path: `true` means a slot was granted and the
  child runs as a concurrently scheduled task (a `spawn` event); `false`
  means refusal and the child is walked inline.  Quantifying theorems over
  all `adm` covers every admission budget and every timing of slot
  availability.
* The record channel is modelled by traces: a task's behaviour is a list of
  events (`EvL`), an event being a successful channel send (`Ev.emit`) or
  the spawning of a concurrent subtask (`Ev.spawn`).  The single consumer
  observes some interleaving of the concurrent tasks' sends; `IsOutput`
  (defined later) relates a trace to each list of records the consumer can
  observe: program order within a task is kept, a spawned task's sends land
  anywhere after the spawn point.
* `time.Time` values are abstract `Nat` stamps delivered by the environment
  (`0` is the zero time); sizes are `Int` (Go `int64`).
-/

abbrev Name := List Char

abbrev ErrMsg := String

/-- Result of a fallible environment call (`Except` with a derivable
`DecidableEq`). -/
inductive Res (α : Type) : Type where
  | ok (val : α)
  | err (msg : ErrMsg)
deriving DecidableEq, Repr

/-- The non-directory file kinds distinguished by `type2rune` in
`fastfind.go` (directories are handled by the `FS.dir` constructor). -/
inductive FKind : Type where
  | file
  | symlink
  | device
  | pipe
  | socket
  | chardevice
  | irregular
deriving DecidableEq, Repr

/-- `type2rune` from `fastfind.go`, restricted to non-directory modes
(`os.ModeDir` yields `'d'`, written literally where the walker builds
directory records, as in the source). -/
def type2rune : FKind → Char
  | .file => 'f'
  | .symlink => 'l'
  | .device => 'D'
  | .pipe => 'p'
  | .socket => 'S'
  | .chardevice => 'c'
  | .irregular => '?'

/-- `childPath` from `fastfind.go`.  On a cleaned base and a
separator-free name, `filepath.Join(base, name)` is `base + "/" + name`,
and the special case for base `"."` also produces `"." + "/" + name`, so
both Go branches collapse to one append. -/
def childPath (base : Name) (name : Name) : Name := base ++ '/' :: name

/-- The `Record` struct of the current generation (`Path`, `Type`, `Size`,
`MTime`, `Errors`).  Field `rtype` stands for the Go field `Type`. -/
structure Record where
  path : Name
  rtype : Char
  size : Int := 0
  mtime : Nat := 0
  errors : List ErrMsg := []
deriving DecidableEq, Repr

mutual
/-- A directory tree as the unix walker observes it.  A `dir` node carries
the environment's answers at that node: `openRes` is the `openat` outcome
when the parent opens it (`none` = success; ignored for the root, which
`main` has already opened), `fstatRes` the `Fstat` outcome on its own
handle, `enumRes` the `ReadDir` outcome (`none` = success), and `children`
the entries `ReadDir` would list.  An `other` node is a non-directory child
with its `fstatat` outcome (size and mtime). -/
inductive FS : Type where
  | dir (name : Name) (openRes : Option ErrMsg) (fstatRes : Res Nat)
      (enumRes : Option ErrMsg) (children : FSL)
  | other (name : Name) (kind : FKind) (statRes : Res (Int × Nat))
deriving DecidableEq, Repr
/-- Lists of tree nodes (a mutual inductive so recursion stays
kernel-computable). -/
inductive FSL : Type where
  | nil : FSL
  | cons (c : FS) (rest : FSL) : FSL
deriving DecidableEq, Repr
end

/-- The name of a node (the `entry.Name()` its parent's listing shows). -/
def FS.fname : FS → Name
  | .dir n _ _ _ _ => n
  | .other n _ _ => n

/-- View an `FSL` as an ordinary list. -/
def FSL.toList : FSL → List FS
  | .nil => []
  | .cons c rest => c :: rest.toList

mutual
/-- A task trace event: a successful send on the record channel, or the
spawning of a concurrently scheduled subtask (`errgroup.TryGo` returning
true) whose own trace is nested. -/
inductive Ev : Type where
  | emit (r : Record)
  | spawn (sub : EvL)
deriving DecidableEq, Repr
/-- Event lists (mutual inductive, as for `FSL`). -/
inductive EvL : Type where
  | nil : EvL
  | cons (e : Ev) (rest : EvL) : EvL
deriving DecidableEq, Repr
end

/-- Concatenation of event lists. -/
def EvL.append : EvL → EvL → EvL
  | .nil, l => l
  | .cons e rest, l => .cons e (rest.append l)

/-- The `MTime` of a directory's own record in the unix walker: the
`Fstat` result under `finder.stat`, the zero time otherwise or on
failure. -/
def dirMTime (stat : Bool) (fstatRes : Res Nat) : Nat :=
  if stat then (match fstatRes with | .ok m => m | .err _ => 0) else 0

/-- The errors accumulated on a directory's own record before `ReadDir`:
under `finder.stat` a failing `Fstat` contributes its error. -/
def dirErrs (stat : Bool) (fstatRes : Res Nat) : List ErrMsg :=
  if stat then
    (match fstatRes with | .ok _ => [] | .err e => ["Fstat failed: " ++ e])
  else []

/-- The record a non-directory child produces in the unix walker's child
loop: `fstatat` runs only under `finder.stat` (the `record.Type != 'd'`
conjunct always holds here since `type2rune` never yields `'d'` for these
kinds); on success it fills `Size` and `MTime`, on failure it appends
`fstatat failed`. -/
def childRecord (stat : Bool) (path : Name) (nm : Name) (kind : FKind)
    (statRes : Res (Int × Nat)) : Record :=
  if stat then
    match statRes with
    | .err e =>
        { path := childPath path nm, rtype := type2rune kind,
          errors := ["fstatat failed: " ++ e] }
    | .ok (sz, m) =>
        { path := childPath path nm, rtype := type2rune kind,
          size := sz, mtime := m }
  else { path := childPath path nm, rtype := type2rune kind }

mutual
/-- The unix `Finder.walk` of the current generation (`walk_windows.go`,
unix part): the task owns an open handle for `path`; under `finder.stat` it
`Fstat`s its own handle for the directory's mtime (a failure is appended to
the directory's own record); it `ReadDir`s the handle, emits the
directory's own record (with the `ReadDir` error appended on failure, in
which case it returns), then loops over the children.  `walkU` is the trace
of that task in an uncancelled run. -/
def walkU (stat : Bool) (adm : Name → Bool) (path : Name) : FS → EvL
  | .other _ _ _ => .nil
  | .dir _ _ fstatRes enumRes children =>
    match enumRes with
    | some e =>
        .cons (.emit { path := path, rtype := 'd',
                       mtime := dirMTime stat fstatRes,
                       errors := dirErrs stat fstatRes ++
                         ["ReadDir failed: " ++ e] }) .nil
    | none =>
        .cons (.emit { path := path, rtype := 'd',
                       mtime := dirMTime stat fstatRes,
                       errors := dirErrs stat fstatRes })
          (walkChildren stat adm path children)
/-- The unix walker's child loop.  A non-directory child's record is sent
directly.  A directory child is `openat`ed; on failure its record is sent
with the error and it is not descended into; on success no record is sent
here — the walker descends, as a spawned task if `TryGo` admits it
(`adm` true) and inline otherwise. -/
def walkChildren (stat : Bool) (adm : Name → Bool) (path : Name) : FSL → EvL
  | .nil => .nil
  | .cons c rest =>
      (match c with
        | FS.other nm kind statRes =>
            EvL.cons (.emit (childRecord stat path nm kind statRes)) .nil
        | FS.dir nm (some e) _ _ _ =>
            EvL.cons (.emit { path := childPath path nm, rtype := 'd',
                              errors := ["openat failed: " ++ e] }) .nil
        | FS.dir nm none _ _ _ =>
            if adm (childPath path nm) then
              EvL.cons (.spawn (walkU stat adm (childPath path nm) c)) .nil
            else walkU stat adm (childPath path nm) c).append
        (walkChildren stat adm path rest)
end

mutual
/-- All records sent within an event (descending into spawned tasks). -/
def Ev.records : Ev → List Record
  | .emit r => [r]
  | .spawn sub => EvL.records sub
/-- All records sent within a trace, in task program order with spawned
tasks' records placed at their spawn point (one canonical linearisation;
`IsOutput` below describes all of them). -/
def EvL.records : EvL → List Record
  | .nil => []
  | .cons e rest => e.records ++ EvL.records rest
end

mutual
/-- All paths of filesystem objects reachable from the node walked at
`path` (the node itself and, for directories, everything below it),
irrespective of any errors. -/
def reachablePaths (path : Name) : FS → List Name
  | .dir _ _ _ _ children => path :: reachableChildren path children
  | .other _ _ _ => [path]
/-- `reachablePaths` over a list of children. -/
def reachableChildren (path : Name) : FSL → List Name
  | .nil => []
  | .cons c rest =>
      reachablePaths (childPath path (FS.fname c)) c ++ reachableChildren path rest
end

/-- Membership-based duplicate check for name lists (`true` iff nodup). -/
def nodupb : List Name → Bool
  | [] => true
  | n :: rest => !(rest.contains n) && nodupb rest

/-- A name is separator-free (real directory entries never contain `/`). -/
def noSlash (n : Name) : Bool := !(n.contains '/')

mutual
/-- A tree containing only readable directories and regular files: every
open, `Fstat`, listing and `fstatat` succeeds and every non-directory is a
regular file. -/
def cleanb : FS → Bool
  | .dir _ openRes fstatRes enumRes children =>
      openRes.isNone &&
      (match fstatRes with | .ok _ => true | .err _ => false) &&
      enumRes.isNone && cleanbL children
  | .other _ kind statRes =>
      (kind == FKind.file) &&
      (match statRes with | .ok _ => true | .err _ => false)
/-- `cleanb` over children lists. -/
def cleanbL : FSL → Bool
  | .nil => true
  | .cons c rest => cleanb c && cleanbL rest
end

/-- The names of a directory's direct children. -/
def childNames : FSL → List Name
  | .nil => []
  | .cons c rest => FS.fname c :: childNames rest

mutual
/-- Well-formed naming: in every directory the children's names are
pairwise distinct and contain no path separator (true of every real
directory listing). -/
def goodb : FS → Bool
  | .dir _ _ _ _ children => nodupb (childNames children) && goodbL children
  | .other _ _ _ => true
/-- `goodb` over children lists (also checks each child's own name). -/
def goodbL : FSL → Bool
  | .nil => true
  | .cons c rest => noSlash (FS.fname c) && goodb c && goodbL rest
end

mutual
/-- The directories the walker actually enters, with the path each is
entered at: the node itself, and recursively the children of every
successfully listed directory whose `openat` succeeded. -/
def visitedDirs (path : Name) : FS → List (Name × FS)
  | FS.dir n op fstatRes enumRes children =>
      (path, FS.dir n op fstatRes enumRes children) ::
        (match enumRes with
          | some _ => []
          | none => visitedDirsL path children)
  | .other _ _ _ => []
/-- `visitedDirs` over children lists (only successfully opened directory
children are entered). -/
def visitedDirsL (path : Name) : FSL → List (Name × FS)
  | .nil => []
  | .cons c rest =>
      (match c with
        | FS.dir nm none _ _ _ => visitedDirs (childPath path nm) c
        | _ => []) ++ visitedDirsL path rest
end

mutual
/-- The records the walker sends for the subtree at `path`, in the
canonical (all-inline) order.  This is the sequential reference semantics:
`walkU_records` below proves the trace of any admission schedule linearises
to exactly this list. -/
def wrecs (stat : Bool) (path : Name) : FS → List Record
  | .other _ _ _ => []
  | .dir _ _ fstatRes enumRes children =>
    match enumRes with
    | some e =>
        [{ path := path, rtype := 'd', mtime := dirMTime stat fstatRes,
           errors := dirErrs stat fstatRes ++ ["ReadDir failed: " ++ e] }]
    | none =>
        { path := path, rtype := 'd', mtime := dirMTime stat fstatRes,
          errors := dirErrs stat fstatRes } ::
          wrecsChildren stat path children
/-- `wrecs` over the child loop. -/
def wrecsChildren (stat : Bool) (path : Name) : FSL → List Record
  | .nil => []
  | .cons c rest =>
      (match c with
        | FS.other nm kind statRes => [childRecord stat path nm kind statRes]
        | FS.dir nm (some e) _ _ _ =>
            [{ path := childPath path nm, rtype := 'd',
               errors := ["openat failed: " ++ e] }]
        | FS.dir nm none _ _ _ => wrecs stat (childPath path nm) c) ++
        wrecsChildren stat path rest
end

/-- One list interleaves two others preserving each one's internal order
(the possible merges of two concurrent tasks' sends at the single
consumer). -/
inductive Interleave : List Record → List Record → List Record → Prop where
  | nil : Interleave [] [] []
  | left {x xs ys zs} : Interleave xs ys zs → Interleave (x :: xs) ys (x :: zs)
  | right {y xs ys zs} : Interleave xs ys zs → Interleave xs (y :: ys) (y :: zs)

/-- `IsOutput evs out`: `out` is a possible record stream the consumer
observes from the trace `evs`: sends of one task arrive in program order,
and a spawned task's sends interleave arbitrarily with everything after
its spawn point. -/
inductive IsOutput : EvL → List Record → Prop where
  | nil : IsOutput .nil []
  | emit {r evs out} : IsOutput evs out → IsOutput (.cons (.emit r) evs) (r :: out)
  | spawn {sub evs o1 o2 out} : IsOutput sub o1 → IsOutput evs o2 →
      Interleave o1 o2 out → IsOutput (.cons (.spawn sub) evs) out

@[simp] theorem EvL.nil_append (l : EvL) : EvL.append .nil l = l := rfl

@[simp] theorem EvL.cons_append (e : Ev) (rest l : EvL) :
    EvL.append (.cons e rest) l = .cons e (EvL.append rest l) := rfl

@[simp] theorem Ev.records_emit (r : Record) : (Ev.emit r).records = [r] := rfl

@[simp] theorem Ev.records_spawn (sub : EvL) :
    (Ev.spawn sub).records = sub.records := rfl

@[simp] theorem EvL.records_nil : EvL.records .nil = [] := rfl

@[simp] theorem EvL.records_cons (e : Ev) (rest : EvL) :
    (EvL.cons e rest).records = e.records ++ rest.records := rfl

@[simp] theorem walkU_other (stat : Bool) (adm : Name → Bool) (p n : Name)
    (k : FKind) (st : Res (Int × Nat)) :
    walkU stat adm p (.other n k st) = .nil := rfl

@[simp] theorem walkU_dir_enumFail (stat : Bool) (adm : Name → Bool)
    (p n : Name) (op : Option ErrMsg) (f : Res Nat) (e : ErrMsg) (cs : FSL) :
    walkU stat adm p (.dir n op f (some e) cs) =
      .cons (.emit { path := p, rtype := 'd', mtime := dirMTime stat f,
                     errors := dirErrs stat f ++ ["ReadDir failed: " ++ e] })
        .nil := rfl

@[simp] theorem walkU_dir (stat : Bool) (adm : Name → Bool) (p n : Name)
    (op : Option ErrMsg) (f : Res Nat) (cs : FSL) :
    walkU stat adm p (.dir n op f none cs) =
      .cons (.emit { path := p, rtype := 'd', mtime := dirMTime stat f,
                     errors := dirErrs stat f })
        (walkChildren stat adm p cs) := rfl

@[simp] theorem walkChildren_nil (stat : Bool) (adm : Name → Bool) (p : Name) :
    walkChildren stat adm p .nil = .nil := rfl

@[simp] theorem walkChildren_other (stat : Bool) (adm : Name → Bool)
    (p nm : Name) (k : FKind) (st : Res (Int × Nat)) (rest : FSL) :
    walkChildren stat adm p (.cons (.other nm k st) rest) =
      EvL.cons (.emit (childRecord stat p nm k st))
        (walkChildren stat adm p rest) := rfl

@[simp] theorem walkChildren_dir_openFail (stat : Bool) (adm : Name → Bool)
    (p nm : Name) (e : ErrMsg) (f : Res Nat) (enm : Option ErrMsg) (cs rest : FSL) :
    walkChildren stat adm p (.cons (.dir nm (some e) f enm cs) rest) =
      EvL.cons (.emit { path := childPath p nm, rtype := 'd',
                        errors := ["openat failed: " ++ e] })
        (walkChildren stat adm p rest) := rfl

@[simp] theorem walkChildren_dir (stat : Bool) (adm : Name → Bool)
    (p nm : Name) (f : Res Nat) (enm : Option ErrMsg) (cs rest : FSL) :
    walkChildren stat adm p (.cons (.dir nm none f enm cs) rest) =
      (if adm (childPath p nm) then
        EvL.cons (.spawn (walkU stat adm (childPath p nm) (.dir nm none f enm cs)))
          .nil
      else walkU stat adm (childPath p nm) (.dir nm none f enm cs)).append
        (walkChildren stat adm p rest) := rfl

@[simp] theorem wrecs_other (stat : Bool) (p n : Name) (k : FKind)
    (st : Res (Int × Nat)) : wrecs stat p (.other n k st) = [] := rfl

@[simp] theorem wrecs_dir_enumFail (stat : Bool) (p n : Name)
    (op : Option ErrMsg) (f : Res Nat) (e : ErrMsg) (cs : FSL) :
    wrecs stat p (.dir n op f (some e) cs) =
      [{ path := p, rtype := 'd', mtime := dirMTime stat f,
         errors := dirErrs stat f ++ ["ReadDir failed: " ++ e] }] := rfl

@[simp] theorem wrecs_dir (stat : Bool) (p n : Name) (op : Option ErrMsg)
    (f : Res Nat) (cs : FSL) :
    wrecs stat p (.dir n op f none cs) =
      { path := p, rtype := 'd', mtime := dirMTime stat f,
        errors := dirErrs stat f } :: wrecsChildren stat p cs := rfl

@[simp] theorem wrecsChildren_nil (stat : Bool) (p : Name) :
    wrecsChildren stat p .nil = [] := rfl

@[simp] theorem wrecsChildren_other (stat : Bool) (p nm : Name) (k : FKind)
    (st : Res (Int × Nat)) (rest : FSL) :
    wrecsChildren stat p (.cons (.other nm k st) rest) =
      childRecord stat p nm k st :: wrecsChildren stat p rest := rfl

@[simp] theorem wrecsChildren_dir_openFail (stat : Bool) (p nm : Name)
    (e : ErrMsg) (f : Res Nat) (enm : Option ErrMsg) (cs rest : FSL) :
    wrecsChildren stat p (.cons (.dir nm (some e) f enm cs) rest) =
      { path := childPath p nm, rtype := 'd',
        errors := ["openat failed: " ++ e] } :: wrecsChildren stat p rest := rfl

@[simp] theorem wrecsChildren_dir (stat : Bool) (p nm : Name) (f : Res Nat)
    (enm : Option ErrMsg) (cs rest : FSL) :
    wrecsChildren stat p (.cons (.dir nm none f enm cs) rest) =
      wrecs stat (childPath p nm) (.dir nm none f enm cs) ++
        wrecsChildren stat p rest := rfl

@[simp] theorem reachablePaths_dir (p n : Name) (op : Option ErrMsg)
    (f : Res Nat) (enm : Option ErrMsg) (cs : FSL) :
    reachablePaths p (.dir n op f enm cs) = p :: reachableChildren p cs := rfl

@[simp] theorem reachablePaths_other (p n : Name) (k : FKind)
    (st : Res (Int × Nat)) : reachablePaths p (.other n k st) = [p] := rfl

@[simp] theorem reachableChildren_nil (p : Name) :
    reachableChildren p .nil = [] := rfl

@[simp] theorem reachableChildren_cons (p : Name) (c : FS) (rest : FSL) :
    reachableChildren p (.cons c rest) =
      reachablePaths (childPath p (FS.fname c)) c ++ reachableChildren p rest := rfl

@[simp] theorem cleanb_dir (n : Name) (op : Option ErrMsg) (f : Res Nat)
    (enm : Option ErrMsg) (cs : FSL) :
    cleanb (.dir n op f enm cs) =
      (op.isNone && (match f with | .ok _ => true | .err _ => false) &&
        enm.isNone && cleanbL cs) := rfl

@[simp] theorem cleanb_other (n : Name) (k : FKind) (st : Res (Int × Nat)) :
    cleanb (.other n k st) =
      ((k == FKind.file) && (match st with | .ok _ => true | .err _ => false)) := rfl

@[simp] theorem cleanbL_nil : cleanbL .nil = true := rfl

@[simp] theorem cleanbL_cons (c : FS) (rest : FSL) :
    cleanbL (.cons c rest) = (cleanb c && cleanbL rest) := rfl

@[simp] theorem childNames_nil : childNames .nil = [] := rfl

@[simp] theorem childNames_cons (c : FS) (rest : FSL) :
    childNames (.cons c rest) = FS.fname c :: childNames rest := rfl

@[simp] theorem goodb_dir (n : Name) (op : Option ErrMsg) (f : Res Nat)
    (enm : Option ErrMsg) (cs : FSL) :
    goodb (.dir n op f enm cs) = (nodupb (childNames cs) && goodbL cs) := rfl

@[simp] theorem goodb_other (n : Name) (k : FKind) (st : Res (Int × Nat)) :
    goodb (.other n k st) = true := rfl

@[simp] theorem goodbL_nil : goodbL .nil = true := rfl

@[simp] theorem goodbL_cons (c : FS) (rest : FSL) :
    goodbL (.cons c rest) = (noSlash (FS.fname c) && goodb c && goodbL rest) := rfl

@[simp] theorem visitedDirs_dir (p n : Name) (op : Option ErrMsg) (f : Res Nat)
    (enm : Option ErrMsg) (cs : FSL) :
    visitedDirs p (.dir n op f enm cs) =
      (p, FS.dir n op f enm cs) ::
        (match enm with | some _ => [] | none => visitedDirsL p cs) := rfl

@[simp] theorem visitedDirs_other (p n : Name) (k : FKind)
    (st : Res (Int × Nat)) : visitedDirs p (.other n k st) = [] := rfl

@[simp] theorem visitedDirsL_nil (p : Name) : visitedDirsL p .nil = [] := rfl

@[simp] theorem visitedDirsL_cons (p : Name) (c : FS) (rest : FSL) :
    visitedDirsL p (.cons c rest) =
      (match c with
        | FS.dir nm none _ _ _ => visitedDirs (childPath p nm) c
        | _ => []) ++ visitedDirsL p rest := rfl

@[simp] theorem FSL.toList_nil : FSL.toList .nil = [] := rfl

@[simp] theorem FSL.toList_cons (c : FS) (rest : FSL) :
    FSL.toList (.cons c rest) = c :: rest.toList := rfl

theorem EvL.records_append (a b : EvL) :
    (EvL.append a b).records = a.records ++ b.records := by
  cases a with
  | nil => simp
  | cons e rest => simp [EvL.records_append rest b]

mutual
theorem walkU_records (stat : Bool) (adm : Name → Bool) (p : Name) (t : FS) :
    (walkU stat adm p t).records = wrecs stat p t := by
  cases t with
  | other n k s => simp
  | dir n op f enm cs =>
    cases enm with
    | some e => simp
    | none => simp [walkChildren_records stat adm p cs]
theorem walkChildren_records (stat : Bool) (adm : Name → Bool) (p : Name)
    (l : FSL) :
    (walkChildren stat adm p l).records = wrecsChildren stat p l := by
  cases l with
  | nil => simp
  | cons c rest =>
    cases c with
    | other nm k s => simp [walkChildren_records stat adm p rest]
    | dir nm op f enm cs =>
      cases op with
      | some e => simp [walkChildren_records stat adm p rest]
      | none =>
        by_cases h : adm (childPath p nm) <;>
          simp [h, EvL.records_append,
            walkU_records stat adm (childPath p nm) (FS.dir nm none f enm cs),
            walkChildren_records stat adm p rest]
end

/-- A path suffix contributed below some base: empty or starting with the
separator. -/
def slashy (s : Name) : Prop := s = [] ∨ ∃ s2, s = '/' :: s2

theorem slashy_nil : slashy [] := Or.inl rfl

theorem slashy_slash (s : Name) : slashy ('/' :: s) := Or.inr ⟨s, rfl⟩

/-- Two separator-free names followed by slashy suffixes concatenate
injectively in the name component. -/
theorem name_sep {n1 n2 s1 s2 : Name} (h1 : '/' ∉ n1) (h2 : '/' ∉ n2)
    (g1 : slashy s1) (g2 : slashy s2) (he : n1 ++ s1 = n2 ++ s2) :
    n1 = n2 := by
  induction n1 generalizing n2 with
  | nil =>
    cases n2 with
    | nil => rfl
    | cons c n2' =>
      exfalso
      rcases g1 with rfl | ⟨s', rfl⟩
      · simp at he
      · rw [List.nil_append, List.cons_append] at he
        obtain ⟨hc, -⟩ := List.cons.injEq .. ▸ he
        exact h2 (hc ▸ List.mem_cons_self _ _)
  | cons c n1' ih =>
    cases n2 with
    | nil =>
      exfalso
      rcases g2 with rfl | ⟨s', rfl⟩
      · simp at he
      · rw [List.nil_append, List.cons_append] at he
        obtain ⟨hc, -⟩ := List.cons.injEq .. ▸ he
        exact h1 (hc ▸ List.mem_cons_self _ _)
    | cons c2 n2' =>
      rw [List.cons_append, List.cons_append] at he
      obtain ⟨hc, htl⟩ := List.cons.injEq .. ▸ he
      subst hc
      have := ih (fun hm => h1 (List.mem_cons_of_mem _ hm))
        (fun hm => h2 (List.mem_cons_of_mem _ hm)) htl
      rw [this]

theorem mem_childNames_of_mem_toList {c : FS} :
    ∀ {l : FSL}, c ∈ l.toList → FS.fname c ∈ childNames l
  | .nil, h => by simp at h
  | .cons c2 rest, h => by
    rcases List.mem_cons.mp (by simpa using h) with rfl | hm
    · simp
    · exact List.mem_cons_of_mem _ (mem_childNames_of_mem_toList hm)

theorem goodbL_of_mem {c : FS} :
    ∀ {l : FSL}, goodbL l = true → c ∈ l.toList →
      noSlash (FS.fname c) = true ∧ goodb c = true
  | .nil, _, h => by simp at h
  | .cons c2 rest, hg, h => by
    simp only [goodbL_cons, Bool.and_eq_true] at hg
    rcases List.mem_cons.mp (by simpa using h) with rfl | hm
    · exact ⟨hg.1.1, hg.1.2⟩
    · exact goodbL_of_mem hg.2 hm

theorem noSlash_mem {n : Name} (h : noSlash n = true) : '/' ∉ n := by
  unfold noSlash at h
  simpa using h

mutual
theorem reachable_ext (p : Name) (t : FS) :
    ∀ q ∈ reachablePaths p t, ∃ s, q = p ++ s ∧ slashy s := by
  cases t with
  | other n k st =>
    intro q hq
    simp only [reachablePaths_other, List.mem_singleton] at hq
    exact ⟨[], by simp [hq], slashy_nil⟩
  | dir n op f enm cs =>
    intro q hq
    rcases List.mem_cons.mp (by simpa using hq) with rfl | hm
    · exact ⟨[], by simp, slashy_nil⟩
    · obtain ⟨c, s, _, hq, _⟩ := reachableChildren_ext p cs q hm
      exact ⟨'/' :: (FS.fname c ++ s), hq, slashy_slash _⟩
theorem reachableChildren_ext (p : Name) (l : FSL) :
    ∀ q ∈ reachableChildren p l,
      ∃ c s, c ∈ l.toList ∧ q = p ++ '/' :: (FS.fname c ++ s) ∧ slashy s := by
  cases l with
  | nil => intro q hq; simp at hq
  | cons c rest =>
    intro q hq
    rcases List.mem_append.mp (by simpa using hq) with hm | hm
    · obtain ⟨s, hq, hs⟩ := reachable_ext (childPath p (FS.fname c)) c q hm
      refine ⟨c, s, by simp, ?_, hs⟩
      simpa [childPath] using hq
    · obtain ⟨c2, s, hc2, hq, hs⟩ := reachableChildren_ext p rest q hm
      exact ⟨c2, s, by simp [hc2], hq, hs⟩
end

theorem ne_of_extension {p s : Name} (hs : s ≠ []) : p ++ s ≠ p := by
  intro h
  have : p ++ s = p ++ [] := by simpa using h
  exact hs (List.append_cancel_left this)

theorem not_mem_reachableChildren_self (p : Name) (l : FSL) :
    p ∉ reachableChildren p l := by
  intro hm
  obtain ⟨c, s, _, hq, _⟩ := reachableChildren_ext p l p hm
  exact ne_of_extension (by simp) hq.symm

theorem nodupb_head {n : Name} {ns : List Name}
    (h : nodupb (n :: ns) = true) : n ∉ ns ∧ nodupb ns = true := by
  unfold nodupb at h
  simp only [Bool.and_eq_true, Bool.not_eq_true'] at h
  refine ⟨fun hm => ?_, h.2⟩
  have : ns.contains n = true := by simpa using hm
  rw [this] at h
  exact Bool.false_ne_true h.1.symm

theorem reachableChildren_disjoint {p : Name} {c : FS} {rest : FSL}
    (hns : noSlash (FS.fname c) = true) (hrest : goodbL rest = true)
    (hnotin : FS.fname c ∉ childNames rest) :
    ∀ q ∈ reachablePaths (childPath p (FS.fname c)) c,
      q ∉ reachableChildren p rest := by
  intro q hq hq2
  obtain ⟨s1, hq1, hs1⟩ := reachable_ext _ _ q hq
  obtain ⟨c2, s2, hc2, hq2e, hs2⟩ := reachableChildren_ext p rest q hq2
  rw [childPath, List.append_assoc] at hq1
  rw [hq1] at hq2e
  have hmain : FS.fname c ++ s1 = FS.fname c2 ++ s2 := by
    have := List.append_cancel_left hq2e
    exact List.cons_injective.eq_iff.mp this
  have hnc2 := (goodbL_of_mem hrest hc2).1
  have heq := name_sep (noSlash_mem hns) (noSlash_mem hnc2) hs1 hs2 hmain
  exact hnotin (heq ▸ mem_childNames_of_mem_toList hc2)

mutual
theorem reachable_nodup (p : Name) (t : FS) (hg : goodb t = true) :
    (reachablePaths p t).Nodup := by
  cases t with
  | other n k st => simp
  | dir n op f enm cs =>
    simp only [goodb_dir, Bool.and_eq_true] at hg
    simp only [reachablePaths_dir, List.nodup_cons]
    exact ⟨not_mem_reachableChildren_self p cs,
      reachableChildren_nodup p cs hg.1 hg.2⟩
theorem reachableChildren_nodup (p : Name) (l : FSL)
    (hnames : nodupb (childNames l) = true) (hg : goodbL l = true) :
    (reachableChildren p l).Nodup := by
  cases l with
  | nil => simp
  | cons c rest =>
    simp only [childNames_cons] at hnames
    obtain ⟨hnotin, hnames'⟩ := nodupb_head hnames
    simp only [goodbL_cons, Bool.and_eq_true] at hg
    simp only [reachableChildren_cons]
    refine List.Nodup.append ?_ ?_ ?_
    · exact reachable_nodup _ _ hg.1.2
    · exact reachableChildren_nodup p rest hnames' hg.2
    · intro q hq hq2
      exact reachableChildren_disjoint hg.1.1 hg.2 hnotin q hq hq2
end

theorem Interleave.perm_inter {o1 o2 o : List Record} (h : Interleave o1 o2 o) :
    o.Perm (o1 ++ o2) := by
  induction h with
  | nil => rfl
  | left _ ih => exact List.Perm.cons _ ih
  | right _ ih => exact (List.Perm.cons _ ih).trans (List.perm_middle).symm

theorem Interleave.sublist_left {o1 o2 o : List Record}
    (h : Interleave o1 o2 o) : o1.Sublist o := by
  induction h with
  | nil => exact List.Sublist.refl _
  | left _ ih => exact ih.cons₂ _
  | right _ ih => exact ih.cons _

theorem Interleave.sublist_right {o1 o2 o : List Record}
    (h : Interleave o1 o2 o) : o2.Sublist o := by
  induction h with
  | nil => exact List.Sublist.refl _
  | left _ ih => exact ih.cons _
  | right _ ih => exact ih.cons₂ _

theorem IsOutput.perm_out {evs : EvL} {out : List Record} (h : IsOutput evs out) :
    out.Perm evs.records := by
  induction h with
  | nil => rfl
  | @emit r evs2 out2 _ ih => simpa using List.Perm.cons r ih
  | spawn _ _ hint ih1 ih2 =>
    simpa using hint.perm_inter.trans (ih1.append ih2)

@[simp] theorem childRecord_path (stat : Bool) (p nm : Name) (k : FKind)
    (st : Res (Int × Nat)) :
    (childRecord stat p nm k st).path = childPath p nm := by
  unfold childRecord
  cases stat with
  | false => simp
  | true =>
    cases st with
    | ok v => cases v with | mk a b => simp
    | err e => simp

@[simp] theorem childRecord_rtype (stat : Bool) (p nm : Name) (k : FKind)
    (st : Res (Int × Nat)) :
    (childRecord stat p nm k st).rtype = type2rune k := by
  unfold childRecord
  cases stat with
  | false => simp
  | true =>
    cases st with
    | ok v => cases v with | mk a b => simp
    | err e => simp

mutual
theorem wrecs_paths_sublist (stat : Bool) (p : Name) (t : FS) :
    ((wrecs stat p t).map Record.path).Sublist (reachablePaths p t) := by
  cases t with
  | other n k s => simp
  | dir n op f enm cs =>
    cases enm with
    | some e => simp
    | none => simpa using wrecsChildren_paths_sublist stat p cs
theorem wrecsChildren_paths_sublist (stat : Bool) (p : Name) (l : FSL) :
    ((wrecsChildren stat p l).map Record.path).Sublist (reachableChildren p l) := by
  cases l with
  | nil => simp
  | cons c rest =>
    cases c with
    | other nm k s =>
      have hrest := wrecsChildren_paths_sublist stat p rest
      simp only [wrecsChildren_other, List.map_cons, reachableChildren_cons,
        FS.fname, reachablePaths_other, childRecord_path]
      exact hrest.cons_cons _
    | dir nm op f enm cs =>
      cases op with
      | some e =>
        have hrest := wrecsChildren_paths_sublist stat p rest
        simp only [wrecsChildren_dir_openFail, List.map_cons,
          reachableChildren_cons, FS.fname, reachablePaths_dir]
        exact List.Sublist.cons_cons _
          ((List.nil_sublist _).append hrest)
      | none =>
        have hrest := wrecsChildren_paths_sublist stat p rest
        have hc := wrecs_paths_sublist stat (childPath p nm)
          (FS.dir nm none f enm cs)
        simp only [wrecsChildren_dir, List.map_append, reachableChildren_cons,
          FS.fname]
        exact hc.append hrest
end

/-- Whether a node is a directory. -/
def FS.isDirB : FS → Bool
  | .dir _ _ _ _ _ => true
  | .other _ _ _ => false

mutual
theorem wrecs_paths_clean (stat : Bool) (p : Name) (t : FS)
    (hc : cleanb t = true) (hd : t.isDirB = true) :
    (wrecs stat p t).map Record.path = reachablePaths p t := by
  cases t with
  | other n k st => simp [FS.isDirB] at hd
  | dir n op f enm cs =>
    simp only [cleanb_dir, Bool.and_eq_true] at hc
    obtain rfl := Option.isNone_iff_eq_none.mp hc.1.2
    simp only [wrecs_dir, reachablePaths_dir, List.map_cons]
    rw [wrecsChildren_paths_clean stat p cs hc.2]
theorem wrecsChildren_paths_clean (stat : Bool) (p : Name) (l : FSL)
    (hc : cleanbL l = true) :
    (wrecsChildren stat p l).map Record.path = reachableChildren p l := by
  cases l with
  | nil => simp
  | cons c rest =>
    simp only [cleanbL_cons, Bool.and_eq_true] at hc
    cases c with
    | other nm k st =>
      simp only [wrecsChildren_other, List.map_cons, reachableChildren_cons,
        FS.fname, reachablePaths_other, childRecord_path]
      rw [wrecsChildren_paths_clean stat p rest hc.2]
      simp
    | dir nm op f enm cs =>
      cases op with
      | some e =>
        have hcd := hc.1
        simp only [cleanb_dir, Bool.and_eq_true] at hcd
        simp at hcd
      | none =>
        simp only [wrecsChildren_dir, List.map_append, reachableChildren_cons,
          FS.fname]
        rw [wrecs_paths_clean stat (childPath p nm) (FS.dir nm none f enm cs)
            hc.1 rfl,
          wrecsChildren_paths_clean stat p rest hc.2]
end

/-- C1: for every directory tree containing only readable directories and
regular files (`cleanb`, with well-formed naming `goodb`), for every
admission oracle `adm` (hence every admission budget size and timing), and
for every record stream `out` the consumer can observe, the multiset of
emitted paths equals the set of paths reachable from the root: a
permutation of `reachablePaths`, with no duplicates. -/
theorem C1_walker_emits_each_reachable_path_exactly_once
    (stat : Bool) (adm : Name → Bool) (p : Name) (t : FS)
    (hc : cleanb t = true) (hg : goodb t = true) (hd : t.isDirB = true)
    (out : List Record) (ho : IsOutput (walkU stat adm p t) out) :
    (out.map Record.path).Perm (reachablePaths p t) ∧
      (out.map Record.path).Nodup := by
  have h1 : out.Perm (wrecs stat p t) := by
    have h := ho.perm_out
    rwa [walkU_records] at h
  have h2 : (out.map Record.path).Perm ((wrecs stat p t).map Record.path) :=
    h1.map _
  rw [wrecs_paths_clean stat p t hc hd] at h2
  exact ⟨h2, h2.nodup_iff.mpr (reachable_nodup p t hg)⟩

/-- A two-node example tree: a root directory containing one regular
file `a`. -/
def exTreeC1 : FS :=
  .dir ['r'] none (.ok 0) none (.cons (.other ['a'] .file (.ok (3, 1))) .nil)

/-- Witness for C1 at a concrete tree, budget decision and interleaving. -/
theorem C1_walker_emits_each_reachable_path_exactly_once_witness :
    (cleanb exTreeC1 = true ∧ goodb exTreeC1 = true ∧
      FS.isDirB exTreeC1 = true) ∧
    ((([{ path := ['r'], rtype := 'd' },
        { path := ['r', '/', 'a'], rtype := 'f' }] : List Record).map
          Record.path).Perm (reachablePaths ['r'] exTreeC1) ∧
      (([{ path := ['r'], rtype := 'd' },
        { path := ['r', '/', 'a'], rtype := 'f' }] : List Record).map
          Record.path).Nodup) :=
  ⟨⟨by decide, by decide, by decide⟩,
    C1_walker_emits_each_reachable_path_exactly_once false (fun _ => false)
      ['r'] exTreeC1 (by decide) (by decide) (by decide) _
      (IsOutput.emit (IsOutput.emit IsOutput.nil))⟩

/-- Whether a directory node's listing succeeds (`ReadDir` returns no
error); `false` for non-directories. -/
def FS.enumOk : FS → Bool
  | .dir _ _ _ none _ => true
  | _ => false

/-- The children of a node (empty for non-directories). -/
def FS.childrenL : FS → FSL
  | .dir _ _ _ _ cs => cs
  | .other _ _ _ => .nil

/-- The record the child loop (or the child's own task) emits for a child
at `childPath p (fname c)`: for a non-directory its `childRecord`; for a
directory whose `openat` failed, the annotated record the parent emits; for
an entered directory, the record the child task emits first (its own
directory record, with the enumeration error when `ReadDir` fails
there). -/
def childOwnRecord (stat : Bool) (p : Name) : FS → Record
  | .other nm k st => childRecord stat p nm k st
  | .dir nm (some e) _ _ _ =>
      { path := childPath p nm, rtype := 'd',
        errors := ["openat failed: " ++ e] }
  | .dir nm none f (some e) _ =>
      { path := childPath p nm, rtype := 'd', mtime := dirMTime stat f,
        errors := dirErrs stat f ++ ["ReadDir failed: " ++ e] }
  | .dir nm none f none _ =>
      { path := childPath p nm, rtype := 'd', mtime := dirMTime stat f,
        errors := dirErrs stat f }

@[simp] theorem childOwnRecord_path (stat : Bool) (p : Name) (c : FS) :
    (childOwnRecord stat p c).path = childPath p (FS.fname c) := by
  cases c with
  | other nm k st => simp [childOwnRecord, FS.fname]
  | dir nm op f enm cs =>
    cases op with
    | some e => simp [childOwnRecord, FS.fname]
    | none => cases enm <;> simp [childOwnRecord, FS.fname]

theorem childOwnRecord_mem {c : FS} (stat : Bool) (p : Name) :
    ∀ {l : FSL}, c ∈ l.toList →
      childOwnRecord stat p c ∈ wrecsChildren stat p l
  | .nil, h => by simp at h
  | .cons c2 rest, h => by
    rcases List.mem_cons.mp (by simpa using h) with rfl | hm
    · cases c with
      | other nm k st => simp [childOwnRecord]
      | dir nm op f enm cs =>
        cases op with
        | some e => simp [childOwnRecord]
        | none =>
          cases enm with
          | some e => simp [childOwnRecord]
          | none => simp [childOwnRecord]
    · cases c2 with
      | other nm k st =>
        exact List.mem_cons_of_mem _ (childOwnRecord_mem stat p hm)
      | dir nm op f enm cs =>
        cases op with
        | some e =>
          exact List.mem_cons_of_mem _ (childOwnRecord_mem stat p hm)
        | none =>
          exact List.mem_append_right _ (childOwnRecord_mem stat p hm)

mutual
/-- The root paths and (never-visited) children of the pruned subtrees: a
directory whose listing failed keeps its whole child forest unvisited, and
a directory child whose `openat` failed keeps its whole child forest
unvisited. -/
def prunedSubtrees (p : Name) : FS → List (Name × FSL)
  | .dir _ _ _ (some _) cs => [(p, cs)]
  | .dir _ _ _ none cs => prunedSubtreesL p cs
  | .other _ _ _ => []
/-- `prunedSubtrees` over the child loop. -/
def prunedSubtreesL (p : Name) : FSL → List (Name × FSL)
  | .nil => []
  | .cons c rest =>
      (match c with
        | .dir nm (some _) _ _ ccs => [(childPath p nm, ccs)]
        | .dir nm none _ _ _ => prunedSubtrees (childPath p nm) c
        | .other _ _ _ => []) ++ prunedSubtreesL p rest
end

@[simp] theorem prunedSubtrees_dir_enumFail (p n : Name) (op : Option ErrMsg)
    (f : Res Nat) (e : ErrMsg) (cs : FSL) :
    prunedSubtrees p (.dir n op f (some e) cs) = [(p, cs)] := rfl

@[simp] theorem prunedSubtrees_dir (p n : Name) (op : Option ErrMsg)
    (f : Res Nat) (cs : FSL) :
    prunedSubtrees p (.dir n op f none cs) = prunedSubtreesL p cs := rfl

@[simp] theorem prunedSubtrees_other (p n : Name) (k : FKind)
    (st : Res (Int × Nat)) : prunedSubtrees p (.other n k st) = [] := rfl

@[simp] theorem prunedSubtreesL_nil (p : Name) : prunedSubtreesL p .nil = [] := rfl

@[simp] theorem prunedSubtreesL_cons (p : Name) (c : FS) (rest : FSL) :
    prunedSubtreesL p (.cons c rest) =
      (match c with
        | .dir nm (some _) _ _ ccs => [(childPath p nm, ccs)]
        | .dir nm none _ _ _ => prunedSubtrees (childPath p nm) c
        | .other _ _ _ => []) ++ prunedSubtreesL p rest := rfl

mutual
theorem prunedSubtrees_ext (p : Name) (t : FS) :
    ∀ qs css, (qs, css) ∈ prunedSubtrees p t →
      ∃ s, qs = p ++ s ∧ slashy s := by
  cases t with
  | other n k st => intro qs css h; simp at h
  | dir n op f enm cs =>
    cases enm with
    | some e =>
      intro qs css h
      simp only [prunedSubtrees_dir_enumFail, List.mem_singleton,
        Prod.mk.injEq] at h
      exact ⟨[], by simp [h.1], slashy_nil⟩
    | none =>
      intro qs css h
      simp only [prunedSubtrees_dir] at h
      obtain ⟨⟨s, hq, hs⟩, -⟩ := prunedSubtreesL_ext p cs qs css h
      exact ⟨s, hq, hs⟩
theorem prunedSubtreesL_ext (p : Name) (l : FSL) :
    ∀ qs css, (qs, css) ∈ prunedSubtreesL p l →
      (∃ s, qs = p ++ s ∧ slashy s) ∧ qs ≠ p := by
  cases l with
  | nil => intro qs css h; simp at h
  | cons c rest =>
    intro qs css h
    rcases List.mem_append.mp (by simpa using h) with hm | hm
    · cases c with
      | other nm k st => simp at hm
      | dir nm op f enm ccs =>
        cases op with
        | some e =>
          simp only [List.mem_singleton, Prod.mk.injEq] at hm
          refine ⟨⟨'/' :: nm, by simp [hm.1, childPath], slashy_slash _⟩, ?_⟩
          rw [hm.1]
          intro hx
          exact ne_of_extension (p := p) (s := '/' :: nm) (by simp)
            (by simpa [childPath] using hx)
        | none =>
          obtain ⟨s, hq, hs⟩ := prunedSubtrees_ext (childPath p nm)
            (FS.dir nm none f enm ccs) qs css hm
          rw [childPath, List.append_assoc] at hq
          refine ⟨⟨'/' :: (nm ++ s), hq, slashy_slash _⟩, ?_⟩
          rw [hq]
          exact ne_of_extension (by simp)
    · obtain ⟨⟨s, hq, hs⟩, hne⟩ := prunedSubtreesL_ext p rest qs css hm
      exact ⟨⟨s, hq, hs⟩, hne⟩
end

mutual
theorem prunedSubtrees_sub (p : Name) (t : FS) :
    ∀ qs css, (qs, css) ∈ prunedSubtrees p t →
      ∀ x ∈ reachableChildren qs css, x ∈ reachablePaths p t := by
  cases t with
  | other n k st => intro qs css h; simp at h
  | dir n op f enm cs =>
    cases enm with
    | some e =>
      intro qs css h x hx
      simp only [prunedSubtrees_dir_enumFail, List.mem_singleton,
        Prod.mk.injEq] at h
      obtain ⟨rfl, rfl⟩ := h
      exact List.mem_cons_of_mem _ hx
    | none =>
      intro qs css h x hx
      simp only [prunedSubtrees_dir] at h
      exact List.mem_cons_of_mem _ (prunedSubtreesL_sub p cs qs css h x hx)
theorem prunedSubtreesL_sub (p : Name) (l : FSL) :
    ∀ qs css, (qs, css) ∈ prunedSubtreesL p l →
      ∀ x ∈ reachableChildren qs css, x ∈ reachableChildren p l := by
  cases l with
  | nil => intro qs css h; simp at h
  | cons c rest =>
    intro qs css h x hx
    rcases List.mem_append.mp (by simpa using h) with hm | hm
    · cases c with
      | other nm k st => simp at hm
      | dir nm op f enm ccs =>
        cases op with
        | some e =>
          simp only [List.mem_singleton, Prod.mk.injEq] at hm
          obtain ⟨rfl, rfl⟩ := hm
          refine List.mem_append_left _ ?_
          simp only [FS.fname, reachablePaths_dir]
          exact List.mem_cons_of_mem _ hx
        | none =>
          refine List.mem_append_left _ ?_
          simp only [FS.fname]
          exact prunedSubtrees_sub (childPath p nm) (FS.dir nm none f enm ccs)
            qs css hm x hx
    · exact List.mem_append_right _ (prunedSubtreesL_sub p rest qs css hm x hx)
end

mutual
theorem visitedDirs_wrecs_sub (stat : Bool) (p : Name) (t : FS) :
    ∀ q d, (q, d) ∈ visitedDirs p t →
      ∀ r ∈ wrecs stat q d, r ∈ wrecs stat p t := by
  cases t with
  | other n k st => intro q d h; simp at h
  | dir n op f enm cs =>
    intro q d h r hr
    have h2 : (q = p ∧ d = FS.dir n op f enm cs) ∨
        (q, d) ∈ (match enm with | some _ => [] | none => visitedDirsL p cs) := by
      simpa using h
    rcases h2 with ⟨rfl, rfl⟩ | hm
    · exact hr
    · cases enm with
      | some e => simp at hm
      | none =>
        simp only [wrecs_dir]
        exact List.mem_cons_of_mem _
          (visitedDirsL_wrecs_sub stat p cs q d hm r hr)
theorem visitedDirsL_wrecs_sub (stat : Bool) (p : Name) (l : FSL) :
    ∀ q d, (q, d) ∈ visitedDirsL p l →
      ∀ r ∈ wrecs stat q d, r ∈ wrecsChildren stat p l := by
  cases l with
  | nil => intro q d h; simp at h
  | cons c rest =>
    intro q d h r hr
    rcases List.mem_append.mp (by simpa using h) with hm | hm
    · cases c with
      | other nm k st => simp at hm
      | dir nm op f enm ccs =>
        cases op with
        | some e => simp at hm
        | none =>
          refine List.mem_append_left _ ?_
          exact visitedDirs_wrecs_sub stat (childPath p nm)
            (FS.dir nm none f enm ccs) q d hm r hr
    · exact List.mem_append_right _ (visitedDirsL_wrecs_sub stat p rest q d hm r hr)
end

mutual
theorem visitedDirs_pruned_sub (p : Name) (t : FS) :
    ∀ q d, (q, d) ∈ visitedDirs p t →
      ∀ pr ∈ prunedSubtrees q d, pr ∈ prunedSubtrees p t := by
  cases t with
  | other n k st => intro q d h; simp at h
  | dir n op f enm cs =>
    intro q d h pr hpr
    have h2 : (q = p ∧ d = FS.dir n op f enm cs) ∨
        (q, d) ∈ (match enm with | some _ => [] | none => visitedDirsL p cs) := by
      simpa using h
    rcases h2 with ⟨rfl, rfl⟩ | hm
    · exact hpr
    · cases enm with
      | some e => simp at hm
      | none =>
        simp only [prunedSubtrees_dir]
        exact visitedDirsL_pruned_sub p cs q d hm pr hpr
theorem visitedDirsL_pruned_sub (p : Name) (l : FSL) :
    ∀ q d, (q, d) ∈ visitedDirsL p l →
      ∀ pr ∈ prunedSubtrees q d, pr ∈ prunedSubtreesL p l := by
  cases l with
  | nil => intro q d h; simp at h
  | cons c rest =>
    intro q d h pr hpr
    rcases List.mem_append.mp (by simpa using h) with hm | hm
    · cases c with
      | other nm k st => simp at hm
      | dir nm op f enm ccs =>
        cases op with
        | some e => simp at hm
        | none =>
          refine List.mem_append_left _ ?_
          exact visitedDirs_pruned_sub (childPath p nm)
            (FS.dir nm none f enm ccs) q d hm pr hpr
    · exact List.mem_append_right _ (visitedDirsL_pruned_sub p rest q d hm pr hpr)
end

mutual
theorem pruned_not_emitted (stat : Bool) (p : Name) (t : FS)
    (hg : goodb t = true) :
    ∀ qs css, (qs, css) ∈ prunedSubtrees p t →
      ∀ x ∈ (wrecs stat p t).map Record.path, x ∉ reachableChildren qs css := by
  cases t with
  | other n k st => intro qs css h; simp at h
  | dir n op f enm cs =>
    simp only [goodb_dir, Bool.and_eq_true] at hg
    cases enm with
    | some e =>
      intro qs css h x hx
      simp only [prunedSubtrees_dir_enumFail, List.mem_singleton,
        Prod.mk.injEq] at h
      simp only [wrecs_dir_enumFail, List.map_cons, List.map_nil,
        List.mem_singleton] at hx
      rw [h.1, h.2, hx]
      exact not_mem_reachableChildren_self p cs
    | none =>
      intro qs css h x hx hmem
      simp only [prunedSubtrees_dir] at h
      simp only [wrecs_dir, List.map_cons, List.mem_cons] at hx
      rcases hx with hxp | hx
      · obtain ⟨⟨s, hqs, hs⟩, -⟩ := prunedSubtreesL_ext p cs qs css h
        obtain ⟨c2, s2, -, hx2, -⟩ := reachableChildren_ext qs css x hmem
        refine ne_of_extension (p := p)
          (s := s ++ '/' :: (FS.fname c2 ++ s2)) (by simp) ?_
        rw [← List.append_assoc, ← hqs, ← hx2, hxp]
      · exact prunedSubtreesL_not_emitted stat p cs hg.1 hg.2 qs css h x hx hmem
theorem prunedSubtreesL_not_emitted (stat : Bool) (p : Name) (l : FSL)
    (hnames : nodupb (childNames l) = true) (hg : goodbL l = true) :
    ∀ qs css, (qs, css) ∈ prunedSubtreesL p l →
      ∀ x ∈ (wrecsChildren stat p l).map Record.path,
        x ∉ reachableChildren qs css := by
  cases l with
  | nil => intro qs css h; simp at h
  | cons c rest =>
    simp only [childNames_cons] at hnames
    obtain ⟨hnotin, hnames2⟩ := nodupb_head hnames
    simp only [goodbL_cons, Bool.and_eq_true] at hg
    intro qs css h x hx hmem
    rcases List.mem_append.mp (by simpa using h) with hp | hp
    · cases c with
      | other nm k st => simp at hp
      | dir nm op f enm ccs =>
        cases op with
        | some e =>
          simp only [List.mem_singleton, Prod.mk.injEq] at hp
          have hdesc : x ∈ reachablePaths (childPath p nm)
              (FS.dir nm (some e) f enm ccs) := by
            simp only [reachablePaths_dir]
            refine List.mem_cons_of_mem _ ?_
            rw [← hp.1, ← hp.2]
            exact hmem
          simp only [wrecsChildren_dir_openFail, List.map_cons,
            List.mem_cons] at hx
          rcases hx with hxe | hx
          · obtain ⟨c2, s2, -, hx2, -⟩ := reachableChildren_ext qs css x hmem
            refine ne_of_extension (p := qs)
              (s := '/' :: (FS.fname c2 ++ s2)) (by simp) ?_
            exact hx2.symm.trans (hxe.trans hp.1.symm)
          · have hxr : x ∈ reachableChildren p rest :=
              List.Sublist.mem hx (by
                simpa using wrecsChildren_paths_sublist stat p rest)
            exact reachableChildren_disjoint (p := p)
              (c := FS.dir nm (some e) f enm ccs) hg.1.1 hg.2 (by
                simpa [FS.fname] using hnotin) x (by simpa [FS.fname] using hdesc) hxr
        | none =>
          have hdesc : x ∈ reachablePaths (childPath p nm)
              (FS.dir nm none f enm ccs) :=
            prunedSubtrees_sub (childPath p nm) _ qs css hp x hmem
          simp only [wrecsChildren_dir, List.map_append, List.mem_append] at hx
          rcases hx with hx | hx
          · exact pruned_not_emitted stat (childPath p nm)
              (FS.dir nm none f enm ccs) hg.1.2 qs css hp x hx hmem
          · have hxr : x ∈ reachableChildren p rest :=
              List.Sublist.mem hx (by
                simpa using wrecsChildren_paths_sublist stat p rest)
            exact reachableChildren_disjoint (p := p)
              (c := FS.dir nm none f enm ccs) hg.1.1 hg.2 (by
                simpa [FS.fname] using hnotin) x (by simpa [FS.fname] using hdesc) hxr
    · have hdesc : x ∈ reachableChildren p rest :=
        prunedSubtreesL_sub p rest qs css hp x hmem
      have hhead : ∀ y, y ∈ (match c with
          | FS.other nm k st => [childRecord stat p nm k st]
          | FS.dir nm (some e) _ _ _ =>
              [({ path := childPath p nm, rtype := 'd',
                  errors := ["openat failed: " ++ e] } : Record)]
          | FS.dir nm none f enm ccs =>
              wrecs stat (childPath p nm) (FS.dir nm none f enm ccs)).map
            Record.path →
          y ∈ reachablePaths (childPath p (FS.fname c)) c := by
        intro y hy
        cases c with
        | other nm k st => simpa [FS.fname] using hy
        | dir nm op f enm ccs =>
          cases op with
          | some e =>
            simp only [List.map_cons, List.map_nil, List.mem_singleton] at hy
            subst hy
            simp [FS.fname]
          | none =>
            exact List.Sublist.mem hy (by
              simpa [FS.fname] using wrecs_paths_sublist stat (childPath p nm)
                (FS.dir nm none f enm ccs))
      have hxsplit : x ∈ (match c with
          | FS.other nm k st => [childRecord stat p nm k st]
          | FS.dir nm (some e) _ _ _ =>
              [({ path := childPath p nm, rtype := 'd',
                  errors := ["openat failed: " ++ e] } : Record)]
          | FS.dir nm none f enm ccs =>
              wrecs stat (childPath p nm) (FS.dir nm none f enm ccs)).map
            Record.path ∨ x ∈ (wrecsChildren stat p rest).map Record.path := by
        cases c with
        | other nm k st => simpa using hx
        | dir nm op f enm ccs =>
          cases op with
          | some e => simpa using hx
          | none => simpa using hx
      rcases hxsplit with hx2 | hx2
      · exact reachableChildren_disjoint (p := p) (c := c)
          (goodbL_of_mem (l := .cons c rest) (by simp [hg.1.1, hg.1.2, hg.2])
            (by simp)).1 hg.2 hnotin x (hhead x hx2) hdesc
      · exact prunedSubtreesL_not_emitted stat p rest hnames2 hg.2 qs css hp
          x hx2 hmem
end

theorem prunedSubtreesL_of_openFail {nm : Name} {e : ErrMsg} {cf : Res Nat}
    {cenm : Option ErrMsg} {ccs : FSL} (p : Name) :
    ∀ {l : FSL}, FS.dir nm (some e) cf cenm ccs ∈ l.toList →
      (childPath p nm, ccs) ∈ prunedSubtreesL p l
  | .nil, h => by simp at h
  | .cons c rest, h => by
    rcases List.mem_cons.mp (by simpa using h) with rfl | hm
    · simp
    · cases c with
      | other nm2 k st =>
        simpa using prunedSubtreesL_of_openFail p hm
      | dir nm2 op2 f2 enm2 ccs2 =>
        cases op2 with
        | some e2 =>
          exact List.mem_append_right _ (prunedSubtreesL_of_openFail p hm)
        | none =>
          exact List.mem_append_right _ (prunedSubtreesL_of_openFail p hm)

/-- C2: error containment.  Quantified over every interleaved output `out`
of any admission schedule: (1) for every visited directory whose listing
fails, a record at its path carrying the `ReadDir` error is emitted and no
record at any of its descendants' paths is ever emitted — while, by (2),
the walk continues elsewhere: (2) every child of every visited directory
with a successful listing has its own record emitted (`childOwnRecord`
carries the `openat` error for an unopenable subdirectory and the `fstatat`
error for a failed stat), and a subdirectory whose `openat` failed is never
descended into: no record at any of its descendants' paths is emitted. -/
theorem C2_error_containment
    (stat : Bool) (adm : Name → Bool) (p : Name) (t : FS)
    (hg : goodb t = true)
    (out : List Record) (ho : IsOutput (walkU stat adm p t) out) :
    (∀ q dn dop df e dcs,
      (q, FS.dir dn dop df (some e) dcs) ∈ visitedDirs p t →
        (∃ r ∈ out, r.path = q ∧ ("ReadDir failed: " ++ e) ∈ r.errors) ∧
        (∀ r ∈ out, r.path ∉ reachableChildren q dcs)) ∧
    (∀ q d, (q, d) ∈ visitedDirs p t → FS.enumOk d = true →
      ∀ c, c ∈ (FS.childrenL d).toList →
        (childOwnRecord stat q c ∈ out ∧
        (∀ nm e cf cenm ccs, c = FS.dir nm (some e) cf cenm ccs →
          ∀ r ∈ out, r.path ∉ reachableChildren (childPath q nm) ccs))) := by
  have hperm : out.Perm (wrecs stat p t) := by
    have h := ho.perm_out
    rwa [walkU_records] at h
  constructor
  · intro q dn dop df e dcs hvis
    constructor
    · have hmemw : Record.mk q 'd' 0 (dirMTime stat df)
          (dirErrs stat df ++ ["ReadDir failed: " ++ e]) ∈
          wrecs stat p t := by
        refine visitedDirs_wrecs_sub stat p t q _ hvis _ ?_
        simp
      exact ⟨_, hperm.mem_iff.mpr hmemw, rfl,
        List.mem_append_right _ (List.mem_singleton.mpr rfl)⟩
    · intro r hr hmem
      have hpr : (q, dcs) ∈ prunedSubtrees p t := by
        refine visitedDirs_pruned_sub p t q _ hvis (q, dcs) ?_
        simp
      exact pruned_not_emitted stat p t hg q dcs hpr r.path
        (List.mem_map_of_mem _ (hperm.mem_iff.mp hr)) hmem
  · intro q d hvis henum c hc
    cases d with
    | other n2 k2 st2 => simp [FS.enumOk] at henum
    | dir n2 op2 f2 enm2 cs2 =>
      cases enm2 with
      | some e2 => simp [FS.enumOk] at henum
      | none =>
        constructor
        · refine hperm.mem_iff.mpr ?_
          refine visitedDirs_wrecs_sub stat p t q _ hvis _ ?_
          simp only [wrecs_dir]
          exact List.mem_cons_of_mem _
            (childOwnRecord_mem stat q (by simpa [FS.childrenL] using hc))
        · intro nm e cf cenm ccs hceq r hr hmem
          subst hceq
          have hpr : (childPath q nm, ccs) ∈ prunedSubtrees p t := by
            refine visitedDirs_pruned_sub p t q _ hvis (childPath q nm, ccs) ?_
            simp only [prunedSubtrees_dir]
            exact prunedSubtreesL_of_openFail q (by simpa [FS.childrenL] using hc)
          exact pruned_not_emitted stat p t hg (childPath q nm) ccs hpr r.path
            (List.mem_map_of_mem _ (hperm.mem_iff.mp hr)) hmem

/-- Example tree for C2: a root with a regular file `a` and a subdirectory
`b` whose listing fails, `b` containing a file `x` that must never be
emitted. -/
def exTreeC2 : FS :=
  .dir ['r'] none (.ok 0) none
    (.cons (.other ['a'] .file (.ok (3, 1)))
      (.cons (.dir ['b'] none (.ok 0) (some "EIO")
        (.cons (.other ['x'] .file (.ok (1, 1))) .nil)) .nil))

/-- The (unique, fully inline) output of the walker on `exTreeC2` with
metadata collection off. -/
def exOutC2 : List Record :=
  [Record.mk ['r'] 'd' 0 0 [],
   Record.mk ['r', '/', 'a'] 'f' 0 0 [],
   Record.mk ['r', '/', 'b'] 'd' 0 0 ["ReadDir failed: " ++ "EIO"]]

/-- Witness for C2 at a concrete tree: the enumeration-failed directory's
record carries the error and none of its descendants appear. -/
theorem C2_error_containment_witness :
    (goodb exTreeC2 = true ∧
      (['r', '/', 'b'], FS.dir ['b'] none (.ok 0) (some "EIO")
        (.cons (.other ['x'] .file (.ok (1, 1))) .nil)) ∈
        visitedDirs ['r'] exTreeC2) ∧
    ((∃ r ∈ exOutC2, r.path = ['r', '/', 'b'] ∧
        ("ReadDir failed: " ++ "EIO") ∈ r.errors) ∧
      (∀ r ∈ exOutC2, r.path ∉ reachableChildren ['r', '/', 'b']
        (.cons (.other ['x'] .file (.ok (1, 1))) .nil))) :=
  ⟨⟨by decide, by decide⟩,
    (C2_error_containment false (fun _ => false) ['r'] exTreeC2 (by decide)
      exOutC2 (IsOutput.emit (IsOutput.emit (IsOutput.emit IsOutput.nil)))).1
      ['r', '/', 'b'] ['b'] none (.ok 0) "EIO" _ (by decide)⟩

/-- `EB evs q1 q2`: within the trace `evs`, a record at path `q1` is sent
causally before some record at path `q2` — the `q1` send occurs in program
order (or inside an earlier spawned task is excluded: it is the head emit),
and a `q2` send occurs later in this task or inside any task it (or its
descendants) spawn afterwards. -/
inductive EB : EvL → Name → Name → Prop where
  | here {r : Record} {evs : EvL} {q2 : Name} :
      q2 ∈ (EvL.records evs).map Record.path → EB (.cons (.emit r) evs) r.path q2
  | skip {e : Ev} {evs : EvL} {q1 q2 : Name} :
      EB evs q1 q2 → EB (.cons e evs) q1 q2
  | inSpawn {sub : EvL} {evs : EvL} {q1 q2 : Name} :
      EB sub q1 q2 → EB (.cons (.spawn sub) evs) q1 q2

theorem EB.append_right {evs : EvL} {q1 q2 : Name} (post : EvL)
    (h : EB evs q1 q2) : EB (evs.append post) q1 q2 := by
  induction h with
  | here hq2 =>
    exact EB.here (by
      simp only [EvL.records_append, List.map_append]
      exact List.mem_append_left _ hq2)
  | skip _ ih => exact EB.skip ih
  | inSpawn h _ => exact EB.inSpawn h

theorem EB.append_left {evs : EvL} {q1 q2 : Name} (h : EB evs q1 q2) :
    ∀ pre : EvL, EB (pre.append evs) q1 q2
  | .nil => h
  | .cons e pre => EB.skip (EB.append_left h pre)

/-- Causal precedence survives every interleaving: if `q1` is sent causally
before `q2` in the trace, then in every output the consumer can observe,
some `q1` record occurs strictly before some `q2` record. -/
theorem isOutput_order {evs : EvL} {out : List Record}
    (ho : IsOutput evs out) :
    ∀ q1 q2, EB evs q1 q2 → [q1, q2].Sublist (out.map Record.path) := by
  induction ho with
  | nil => intro q1 q2 h; cases h
  | @emit r evs2 out2 h ih =>
    intro q1 q2 heb
    cases heb with
    | here hq2 =>
      simp only [List.map_cons]
      refine List.Sublist.cons₂ _ (List.singleton_sublist.mpr ?_)
      exact (h.perm_out.map Record.path).mem_iff.mpr hq2
    | skip heb2 =>
      simp only [List.map_cons]
      exact (ih q1 q2 heb2).cons _
  | @spawn sub evs2 o1 o2 out2 h1 h2 hint ih1 ih2 =>
    intro q1 q2 heb
    cases heb with
    | inSpawn heb2 => exact (ih1 q1 q2 heb2).trans (hint.sublist_left.map _)
    | skip heb2 => exact (ih2 q1 q2 heb2).trans (hint.sublist_right.map _)

mutual
theorem EB_walkU (stat : Bool) (adm : Name → Bool) (p : Name) (t : FS) :
    ∀ q d, (q, d) ∈ visitedDirs p t → FS.enumOk d = true →
      ∀ c, c ∈ (FS.childrenL d).toList →
        EB (walkU stat adm p t) q (childPath q (FS.fname c)) := by
  cases t with
  | other n k st => intro q d h; simp at h
  | dir n op f enm cs =>
    intro q d h henum c hc
    have h2 : (q = p ∧ d = FS.dir n op f enm cs) ∨
        (q, d) ∈ (match enm with | some _ => [] | none => visitedDirsL p cs) := by
      simpa using h
    rcases h2 with ⟨rfl, rfl⟩ | hm
    · cases enm with
      | some e => simp [FS.enumOk] at henum
      | none =>
        simp only [walkU_dir]
        refine EB.here ?_
        rw [walkChildren_records, ← childOwnRecord_path stat q c]
        exact List.mem_map_of_mem _
          (childOwnRecord_mem stat q (by simpa [FS.childrenL] using hc))
    · cases enm with
      | some e => simp at hm
      | none =>
        simp only [walkU_dir]
        exact EB.skip (EB_walkChildren stat adm p cs q d hm henum c hc)
theorem EB_walkChildren (stat : Bool) (adm : Name → Bool) (p : Name)
    (l : FSL) :
    ∀ q d, (q, d) ∈ visitedDirsL p l → FS.enumOk d = true →
      ∀ c, c ∈ (FS.childrenL d).toList →
        EB (walkChildren stat adm p l) q (childPath q (FS.fname c)) := by
  cases l with
  | nil => intro q d h; simp at h
  | cons c0 rest =>
    intro q d h henum c hc
    rcases List.mem_append.mp (by simpa using h) with hm | hm
    · cases c0 with
      | other nm k st => simp at hm
      | dir nm op f enm ccs =>
        cases op with
        | some e => simp at hm
        | none =>
          have hsub := EB_walkU stat adm (childPath p nm)
            (FS.dir nm none f enm ccs) q d hm henum c hc
          simp only [walkChildren_dir]
          by_cases ha : adm (childPath p nm)
          · rw [if_pos ha]
            exact EB.inSpawn hsub
          · rw [if_neg ha]
            exact EB.append_right _ hsub
    · have hrest := EB_walkChildren stat adm p rest q d hm henum c hc
      cases c0 with
      | other nm k st => exact EB.skip hrest
      | dir nm op f enm ccs =>
        cases op with
        | some e => exact EB.skip hrest
        | none =>
          simp only [walkChildren_dir]
          exact hrest.append_left _
end

/-- C6: in every interleaving of concurrently admitted tasks, a visited
directory's own record is emitted strictly before the record of each of its
direct children: the pair of paths embeds in order into the output, whose
paths are pairwise distinct. -/
theorem C6_directory_record_before_child_records
    (stat : Bool) (adm : Name → Bool) (p : Name) (t : FS)
    (hg : goodb t = true) (q : Name) (d c : FS)
    (hvis : (q, d) ∈ visitedDirs p t) (henum : FS.enumOk d = true)
    (hc : c ∈ (FS.childrenL d).toList)
    (out : List Record) (ho : IsOutput (walkU stat adm p t) out) :
    [q, childPath q (FS.fname c)].Sublist (out.map Record.path) ∧
      (out.map Record.path).Nodup := by
  constructor
  · exact isOutput_order ho q (childPath q (FS.fname c))
      (EB_walkU stat adm p t q d hvis henum c hc)
  · have hperm : (out.map Record.path).Perm ((wrecs stat p t).map Record.path) := by
      have h := ho.perm_out
      rw [walkU_records] at h
      exact h.map _
    exact hperm.nodup_iff.mpr
      ((wrecs_paths_sublist stat p t).nodup (reachable_nodup p t hg))

/-- Witness for C6 at a concrete tree and interleaving. -/
theorem C6_directory_record_before_child_records_witness :
    (goodb exTreeC2 = true ∧
      (['r'], exTreeC2) ∈ visitedDirs ['r'] exTreeC2 ∧
      FS.enumOk exTreeC2 = true ∧
      FS.other ['a'] .file (.ok (3, 1)) ∈ (FS.childrenL exTreeC2).toList) ∧
    ([['r'], childPath ['r'] (FS.fname (FS.other ['a'] .file (.ok (3, 1))))].Sublist
        (exOutC2.map Record.path) ∧
      (exOutC2.map Record.path).Nodup) :=
  ⟨⟨by decide, by decide, by decide, by decide⟩,
    C6_directory_record_before_child_records false (fun _ => false) ['r']
      exTreeC2 (by decide) ['r'] exTreeC2 (FS.other ['a'] .file (.ok (3, 1)))
      (by decide) (by decide) (by decide) exOutC2
      (IsOutput.emit (IsOutput.emit (IsOutput.emit IsOutput.nil)))⟩

mutual
/-- Number of concurrently scheduled tasks spawned within an event
(`errgroup.TryGo` calls that returned true), spawned descendants
included. -/
def Ev.spawnCount : Ev → Nat
  | .emit _ => 0
  | .spawn sub => 1 + EvL.spawnCount sub
/-- `spawnCount` over a trace. -/
def EvL.spawnCount : EvL → Nat
  | .nil => 0
  | .cons e rest => e.spawnCount + rest.spawnCount
end

@[simp] theorem Ev.spawnCount_emit (r : Record) : (Ev.emit r).spawnCount = 0 := rfl

@[simp] theorem Ev.spawnCount_spawn (sub : EvL) :
    (Ev.spawn sub).spawnCount = 1 + sub.spawnCount := rfl

@[simp] theorem EvL.spawnCount_nil : EvL.spawnCount .nil = 0 := rfl

@[simp] theorem EvL.spawnCount_cons (e : Ev) (rest : EvL) :
    (EvL.cons e rest).spawnCount = e.spawnCount + rest.spawnCount := rfl

theorem EvL.spawnCount_append (a b : EvL) :
    (a.append b).spawnCount = a.spawnCount + b.spawnCount := by
  cases a with
  | nil => simp
  | cons e rest => simp [EvL.spawnCount_append rest b, Nat.add_assoc]

mutual
theorem walkU_refused_spawnCount (stat : Bool) (p : Name) (t : FS) :
    (walkU stat (fun _ => false) p t).spawnCount = 0 := by
  cases t with
  | other n k st => simp
  | dir n op f enm cs =>
    cases enm with
    | some e => simp
    | none => simp [walkChildren_refused_spawnCount stat p cs]
theorem walkChildren_refused_spawnCount (stat : Bool) (p : Name) (l : FSL) :
    (walkChildren stat (fun _ => false) p l).spawnCount = 0 := by
  cases l with
  | nil => simp
  | cons c rest =>
    cases c with
    | other nm k st => simp [walkChildren_refused_spawnCount stat p rest]
    | dir nm op f enm ccs =>
      cases op with
      | some e => simp [walkChildren_refused_spawnCount stat p rest]
      | none =>
        simp [EvL.spawnCount_append,
          walkU_refused_spawnCount stat (childPath p nm)
            (FS.dir nm none f enm ccs),
          walkChildren_refused_spawnCount stat p rest]
end

theorem isOutput_of_spawnFree {evs : EvL} {out : List Record}
    (ho : IsOutput evs out) (hs : evs.spawnCount = 0) :
    out = evs.records := by
  induction ho with
  | nil => rfl
  | @emit r evs2 out2 h ih =>
    simp only [EvL.spawnCount_cons, Ev.spawnCount_emit, Nat.zero_add] at hs
    simp [ih hs]
  | @spawn sub evs2 o1 o2 out2 h1 h2 hint ih1 ih2 =>
    simp only [EvL.spawnCount_cons, Ev.spawnCount_spawn] at hs
    omega

mutual
/-- A directory tree as the windows walker observes it.  A `dir` node
carries the `LastWriteTime` its parent's enumeration reported (`emt`), the
`openRelativeDirectory` outcome from its parent, and its own
`enumerateDirectory` outcome and children; an `other` node carries its
kind, `EndOfFile` size and mtime, all delivered by the parent's
enumeration (the raw batched query returns size and mtime in-band, no
per-child stat happens). -/
inductive WFS : Type where
  | dir (name : Name) (emt : Nat) (openRes : Option ErrMsg)
      (enumRes : Option ErrMsg) (children : WFSL)
  | other (name : Name) (kind : FKind) (esz : Int) (emt : Nat)
deriving DecidableEq, Repr
/-- Lists of windows tree nodes. -/
inductive WFSL : Type where
  | nil : WFSL
  | cons (c : WFS) (rest : WFSL) : WFSL
deriving DecidableEq, Repr
end

/-- The name of a windows tree node. -/
def WFS.wname : WFS → Name
  | .dir n _ _ _ _ => n
  | .other n _ _ _ => n

/-- View a `WFSL` as an ordinary list. -/
def WFSL.toList : WFSL → List WFS
  | .nil => []
  | .cons c rest => c :: rest.toList

mutual
/-- A windows task trace event: a successful channel send, the
`CloseHandle` of the directory handle owned for path `p` (the deferred
close in `Finder._walk`), or the spawn of a concurrent subtask. -/
inductive WEv : Type where
  | send (r : Record)
  | closeH (p : Name)
  | spawn (sub : WEvL)
deriving DecidableEq, Repr
/-- Windows event lists. -/
inductive WEvL : Type where
  | nil : WEvL
  | cons (e : WEv) (rest : WEvL) : WEvL
deriving DecidableEq, Repr
end

/-- Concatenation of windows event lists. -/
def WEvL.append : WEvL → WEvL → WEvL
  | .nil, l => l
  | .cons e rest, l => .cons e (rest.append l)

mutual
/-- The windows `Finder._walk` (`walk_windows.go` lines 101-159).  The task
owns the handle for `path` and `defer`s its `CloseHandle`, so a `closeH`
event ends the trace on every return path.  `canc` models a run whose
cancellation context is already done before the task's first send (every
`select` then takes `ctx.Done()` and returns) versus a run that is never
cancelled; `entryMt` is the `entry.mtime` the caller passes (`entry` is the
parent's enumeration entry, or the zero/`GetFileInformationByHandle` value
at the root).  The `stat` parameter mirrors `finder.stat`, which the
windows walker never consults. -/
def walkWBody (canc stat : Bool) (adm : Name → Bool) (path : Name)
    (entryMt : Nat) : WFS → WEvL
  | .other _ _ _ _ => .nil
  | .dir _ _ _ enumRes children =>
    WEvL.append
      (if canc then .nil
       else match enumRes with
        | some e => .cons (.send (Record.mk path 'd' 0 entryMt [e])) .nil
        | none => .cons (.send (Record.mk path 'd' 0 entryMt []))
            (walkWChildren canc stat adm path children))
      (.cons (.closeH path) .nil)
/-- The windows child loop (`Finder._walk`'s `for` body): a non-directory
child's record is sent with `MTime` from the enumeration and `Size` set
exactly when its type rune is `'f'` (independent of `finder.stat`); a
directory child is opened relative to the parent — on failure its record is
sent carrying the error and it is not descended into, on success the child
task runs spawned (`TryGo` admitted) or inline, and no record is sent for
it here. -/
def walkWChildren (canc stat : Bool) (adm : Name → Bool) (path : Name) :
    WFSL → WEvL
  | .nil => .nil
  | .cons c rest =>
    (match c with
      | .other nm k esz emt =>
          WEvL.cons (.send (Record.mk (childPath path nm) (type2rune k)
            (if type2rune k == 'f' then esz else 0) emt [])) .nil
      | .dir nm emt (some e) _ _ =>
          WEvL.cons (.send (Record.mk (childPath path nm) 'd' 0 emt [e])) .nil
      | .dir nm emt none _ _ =>
          if adm (childPath path nm) then
            WEvL.cons (.spawn (walkWBody canc stat adm (childPath path nm) emt c))
              .nil
          else walkWBody canc stat adm (childPath path nm) emt c).append
      (walkWChildren canc stat adm path rest)
end

/-- The windows `Finder.walk` wrapper (`walk_windows.go` lines 79-99),
called for the root only: it `GetFileInformationByHandle`s the root handle;
on success the mtime seeds `entry.mtime`; on failure it sends a separate
error record for the root path first — and if cancellation wins that
`select`, it returns before `_walk` ever runs, so the deferred
`CloseHandle` inside `_walk` is never registered. -/
def walkW (canc stat : Bool) (adm : Name → Bool) (path : Name)
    (gfi : Res Nat) (t : WFS) : WEvL :=
  match gfi with
  | .ok m => walkWBody canc stat adm path m t
  | .err e =>
      if canc then .nil
      else .cons (.send (Record.mk path 'd' 0 0
          ["GetFileInformationByHandle failed: " ++ e]))
        (walkWBody canc stat adm path 0 t)

mutual
/-- Records sent within a windows event. -/
def WEv.records : WEv → List Record
  | .send r => [r]
  | .closeH _ => []
  | .spawn sub => WEvL.records sub
/-- Records sent within a windows trace. -/
def WEvL.records : WEvL → List Record
  | .nil => []
  | .cons e rest => e.records ++ WEvL.records rest
end

mutual
/-- The handle paths closed within a windows event. -/
def WEv.closes : WEv → List Name
  | .send _ => []
  | .closeH p => [p]
  | .spawn sub => WEvL.closes sub
/-- The handle paths closed within a windows trace. -/
def WEvL.closes : WEvL → List Name
  | .nil => []
  | .cons e rest => e.closes ++ WEvL.closes rest
end

@[simp] theorem WEvL.records_nil_w : WEvL.records .nil = [] := rfl

@[simp] theorem WEvL.records_cons_w (e : WEv) (rest : WEvL) :
    (WEvL.cons e rest).records = e.records ++ rest.records := rfl

@[simp] theorem WEv.records_send (r : Record) : (WEv.send r).records = [r] := rfl

@[simp] theorem WEv.records_closeH (p : Name) : (WEv.closeH p).records = [] := rfl

@[simp] theorem WEv.records_spawn_w (sub : WEvL) :
    (WEv.spawn sub).records = sub.records := rfl

theorem WEvL.records_append_w (a b : WEvL) :
    (a.append b).records = a.records ++ b.records := by
  cases a with
  | nil => rfl
  | cons e rest => simp [WEvL.append, WEvL.records_append_w rest b]

@[simp] theorem walkWBody_other (canc stat : Bool) (adm : Name → Bool)
    (p : Name) (m : Nat) (nm : Name) (k : FKind) (esz : Int) (emt : Nat) :
    walkWBody canc stat adm p m (.other nm k esz emt) = .nil := rfl

@[simp] theorem walkWBody_dir_cancelled (stat : Bool) (adm : Name → Bool)
    (p : Name) (m : Nat) (nm : Name) (emt : Nat) (op enm : Option ErrMsg)
    (cs : WFSL) :
    walkWBody true stat adm p m (.dir nm emt op enm cs) =
      .cons (.closeH p) .nil := rfl

@[simp] theorem walkWBody_dir_enumFail (stat : Bool) (adm : Name → Bool)
    (p : Name) (m : Nat) (nm : Name) (emt : Nat) (op : Option ErrMsg)
    (e : ErrMsg) (cs : WFSL) :
    walkWBody false stat adm p m (.dir nm emt op (some e) cs) =
      .cons (.send (Record.mk p 'd' 0 m [e])) (.cons (.closeH p) .nil) := rfl

@[simp] theorem walkWBody_dir (stat : Bool) (adm : Name → Bool)
    (p : Name) (m : Nat) (nm : Name) (emt : Nat) (op : Option ErrMsg)
    (cs : WFSL) :
    walkWBody false stat adm p m (.dir nm emt op none cs) =
      .cons (.send (Record.mk p 'd' 0 m []))
        ((walkWChildren false stat adm p cs).append (.cons (.closeH p) .nil)) := by
  rw [walkWBody.eq_def]
  simp [WEvL.append]

@[simp] theorem walkWChildren_nil (canc stat : Bool) (adm : Name → Bool)
    (p : Name) : walkWChildren canc stat adm p .nil = .nil := rfl

@[simp] theorem walkWChildren_other (canc stat : Bool) (adm : Name → Bool)
    (p : Name) (nm : Name) (k : FKind) (esz : Int) (emt : Nat) (rest : WFSL) :
    walkWChildren canc stat adm p (.cons (.other nm k esz emt) rest) =
      WEvL.cons (.send (Record.mk (childPath p nm) (type2rune k)
          (if type2rune k == 'f' then esz else 0) emt []))
        (walkWChildren canc stat adm p rest) := rfl

@[simp] theorem walkWChildren_dir_openFail (canc stat : Bool)
    (adm : Name → Bool) (p : Name) (nm : Name) (emt : Nat) (e : ErrMsg)
    (enm : Option ErrMsg) (ccs rest : WFSL) :
    walkWChildren canc stat adm p (.cons (.dir nm emt (some e) enm ccs) rest) =
      WEvL.cons (.send (Record.mk (childPath p nm) 'd' 0 emt [e]))
        (walkWChildren canc stat adm p rest) := rfl

@[simp] theorem walkWChildren_dir (canc stat : Bool) (adm : Name → Bool)
    (p : Name) (nm : Name) (emt : Nat) (enm : Option ErrMsg) (ccs rest : WFSL) :
    walkWChildren canc stat adm p (.cons (.dir nm emt none enm ccs) rest) =
      (if adm (childPath p nm) then
        WEvL.cons (.spawn (walkWBody canc stat adm (childPath p nm) emt
          (.dir nm emt none enm ccs))) .nil
      else walkWBody canc stat adm (childPath p nm) emt
        (.dir nm emt none enm ccs)).append
        (walkWChildren canc stat adm p rest) := rfl

mutual
theorem walkWBody_records_ext (stat : Bool) (adm : Name → Bool)
    (p : Name) (m : Nat) (t : WFS) :
    ∀ r ∈ (walkWBody false stat adm p m t).records,
      r.path = p ∨ ∃ s, r.path = p ++ '/' :: s := by
  cases t with
  | other nm k esz emt => intro r hr; simp at hr
  | dir nm emt op enm cs =>
    intro r hr
    cases enm with
    | some e =>
      simp only [walkWBody_dir_enumFail, WEvL.records_cons_w, WEv.records_send,
        WEv.records_closeH, WEvL.records_nil_w, List.append_nil,
        List.mem_singleton] at hr
      subst hr
      exact Or.inl rfl
    | none =>
      rw [walkWBody_dir, WEvL.records_cons_w, WEv.records_send,
        WEvL.records_append_w] at hr
      simp only [List.singleton_append, List.mem_cons, List.mem_append,
        WEvL.records_cons_w, WEv.records_closeH, WEvL.records_nil_w,
        List.append_nil, List.not_mem_nil, or_false] at hr
      rcases hr with rfl | hr
      · exact Or.inl rfl
      · obtain ⟨s, hs⟩ := walkWChildren_records_ext stat adm p cs r hr
        exact Or.inr ⟨s, hs⟩
theorem walkWChildren_records_ext (stat : Bool) (adm : Name → Bool)
    (p : Name) (l : WFSL) :
    ∀ r ∈ (walkWChildren false stat adm p l).records,
      ∃ s, r.path = p ++ '/' :: s := by
  cases l with
  | nil => intro r hr; simp at hr
  | cons c rest =>
    intro r hr
    cases c with
    | other nm k esz emt =>
      simp only [walkWChildren_other, WEvL.records_cons_w, WEv.records_send,
        List.singleton_append, List.mem_cons] at hr
      rcases hr with rfl | hr
      · exact ⟨nm, rfl⟩
      · exact walkWChildren_records_ext stat adm p rest r hr
    | dir nm emt2 op2 enm2 ccs =>
      cases op2 with
      | some e =>
        simp only [walkWChildren_dir_openFail, WEvL.records_cons_w,
          WEv.records_send, List.singleton_append, List.mem_cons] at hr
        rcases hr with rfl | hr
        · exact ⟨nm, rfl⟩
        · exact walkWChildren_records_ext stat adm p rest r hr
      | none =>
        simp only [walkWChildren_dir, WEvL.records_append_w,
          List.mem_append] at hr
        rcases hr with hr | hr
        · have hsub : r ∈ (walkWBody false stat adm (childPath p nm) emt2
              (WFS.dir nm emt2 none enm2 ccs)).records := by
            by_cases ha : adm (childPath p nm)
            · simpa [ha] using hr
            · simpa [ha] using hr
          rcases walkWBody_records_ext stat adm (childPath p nm) emt2
              (WFS.dir nm emt2 none enm2 ccs) r hsub with hq | ⟨s, hq⟩
          · exact ⟨nm, by simpa [childPath] using hq⟩
          · refine ⟨nm ++ '/' :: s, ?_⟩
            rw [hq, childPath, List.append_assoc]
            simp
        · exact walkWChildren_records_ext stat adm p rest r hr
end

/-- C5: the windows walker violates the scoped-release contract on one
reachable path.  With cancellation already requested and a failing
`GetFileInformationByHandle`, `Finder.walk` returns from the error-record
`select` before `Finder._walk` ever registers its deferred `CloseHandle`,
so the root directory handle is never released (no `closeH` event at all);
the identical run without cancellation releases it exactly once.  The claim
demands exactly one release on every exit path including cancellation. -/
theorem C5_windows_cancelled_stat_failure_leaks_root_handle :
    (walkW true false (fun _ => false) ['r'] (.err "access denied")
      (.dir ['r'] 0 none none .nil)).closes = [] ∧
    (walkW false false (fun _ => false) ['r'] (.err "access denied")
      (.dir ['r'] 0 none none .nil)).closes = [['r']] := by decide

/-- C9 counterexample: on the windows backend, when stat-ing the root
handle fails, two records are emitted for the root's path (the wrapper's
error record and `_walk`'s normal directory record), not one record with
the error appended. -/
theorem C9_counterexample_windows_two_records_for_stat_failed_root :
    ((walkW false true (fun _ => false) ['r'] (.err "EACCES")
        (.dir ['r'] 0 none none .nil)).records.countP
      (fun r => r.path == ['r'])) = 2 := by decide

/-- C9 (amended): when stat-ing a directory's own handle at task entry
fails, enumeration still proceeds; on the unix backend the failure is
appended to the directory's own record and exactly one record is emitted
for its path (with every child still emitted); on the windows backend a
separate record carrying the error is emitted for the root's path before
the normal directory record, so exactly two records carry that path. -/
theorem C9_amended_entry_stat_failure_behaviour (adm : Name → Bool) (p : Name) :
    (∀ (n : Name) (op : Option ErrMsg) (e : ErrMsg) (cs : FSL)
      (out : List Record),
      IsOutput (walkU true adm p (.dir n op (.err e) none cs)) out →
        (out.countP (fun r => r.path == p) = 1 ∧
         (∃ r ∈ out, r.path = p ∧ ("Fstat failed: " ++ e) ∈ r.errors) ∧
         (∀ c ∈ cs.toList, childPath p (FS.fname c) ∈ out.map Record.path))) ∧
    (∀ (stat : Bool) (e : ErrMsg) (nm : Name) (emt : Nat)
      (op enm : Option ErrMsg) (cs : WFSL),
      ((walkW false stat adm p (.err e)
          (.dir nm emt op enm cs)).records.countP (fun r => r.path == p) = 2 ∧
       (∃ r ∈ (walkW false stat adm p (.err e)
            (.dir nm emt op enm cs)).records,
          r.path = p ∧ ("GetFileInformationByHandle failed: " ++ e) ∈ r.errors))) := by
  constructor
  · intro n op e cs out ho
    have hperm : out.Perm (wrecs true p (.dir n op (.err e) none cs)) := by
      have h := ho.perm_out
      rwa [walkU_records] at h
    have hzero : (wrecsChildren true p cs).countP (fun r => r.path == p) = 0 := by
      refine List.countP_eq_zero.mpr ?_
      intro r hr
      obtain ⟨c2, s2, -, hq, -⟩ := reachableChildren_ext p cs r.path
        (List.Sublist.mem (List.mem_map_of_mem _ hr)
          (wrecsChildren_paths_sublist true p cs))
      simp only [beq_iff_eq]
      intro hcontr
      exact ne_of_extension (p := p) (s := '/' :: (FS.fname c2 ++ s2))
        (by simp) (hq.symm.trans hcontr)
    refine ⟨?_, ?_, ?_⟩
    · rw [hperm.countP_eq]
      simp only [wrecs_dir, List.countP_cons, hzero]
      simp [dirMTime, dirErrs]
    · refine ⟨Record.mk p 'd' 0 (dirMTime true (.err e)) (dirErrs true (.err e)),
        hperm.mem_iff.mpr ?_, rfl, ?_⟩
      · simp [wrecs_dir]
      · simp [dirErrs]
    · intro c hc
      have h1 := childOwnRecord_mem (c := c) true p (by simpa using hc)
      have h2 : childOwnRecord true p c ∈
          wrecs true p (.dir n op (.err e) none cs) := by
        simp only [wrecs_dir]
        exact List.mem_cons_of_mem _ h1
      rw [← childOwnRecord_path true p c]
      exact List.mem_map_of_mem _ (hperm.mem_iff.mpr h2)
  · intro stat e nm emt op enm cs
    have hzero : ∀ l : WFSL, (walkWChildren false stat adm p l).records.countP
        (fun r => r.path == p) = 0 := by
      intro l
      refine List.countP_eq_zero.mpr ?_
      intro r hr
      obtain ⟨s, hq⟩ := walkWChildren_records_ext stat adm p l r hr
      simp only [beq_iff_eq]
      intro hcontr
      exact ne_of_extension (p := p) (s := '/' :: s) (by simp)
        (hq.symm.trans hcontr)
    constructor
    · cases enm with
      | some e2 =>
        simp [walkW, List.countP_cons, WEvL.records_append_w]
      | none =>
        simp [walkW, List.countP_cons, WEvL.records_append_w,
          List.countP_append, hzero cs]
    · refine ⟨Record.mk p 'd' 0 0
        ["GetFileInformationByHandle failed: " ++ e], ?_, rfl, by simp⟩
      simp [walkW]

/-- Example tree for C9: the root's `Fstat` fails, its listing succeeds and
shows one regular file. -/
def exTreeC9 : FS :=
  .dir ['r'] none (.err "E1") none
    (.cons (.other ['a'] .file (.ok (1, 1))) .nil)

/-- The output of the walker on `exTreeC9` with metadata collection on. -/
def exOutC9 : List Record :=
  [Record.mk ['r'] 'd' 0 0 ["Fstat failed: " ++ "E1"],
   Record.mk ['r', '/', 'a'] 'f' 1 1 []]

/-- Witness for the amended C9 at concrete trees on both backends. -/
theorem C9_amended_entry_stat_failure_behaviour_witness :
    (IsOutput (walkU true (fun _ => false) ['r'] exTreeC9) exOutC9) ∧
    (exOutC9.countP (fun r => r.path == ['r']) = 1 ∧
      (∃ r ∈ exOutC9, r.path = ['r'] ∧ ("Fstat failed: " ++ "E1") ∈ r.errors) ∧
      (∀ c ∈ (FSL.cons (FS.other ['a'] .file (.ok (1, 1))) .nil).toList,
        childPath ['r'] (FS.fname c) ∈ exOutC9.map Record.path)) ∧
    ((walkW false true (fun _ => false) ['r'] (.err "E2")
        (.dir ['x'] 0 none none .nil)).records.countP
          (fun r => r.path == ['r']) = 2 ∧
      (∃ r ∈ (walkW false true (fun _ => false) ['r'] (.err "E2")
          (.dir ['x'] 0 none none .nil)).records,
        r.path = ['r'] ∧
          ("GetFileInformationByHandle failed: " ++ "E2") ∈ r.errors)) :=
  ⟨IsOutput.emit (IsOutput.emit IsOutput.nil),
    (C9_amended_entry_stat_failure_behaviour (fun _ => false) ['r']).1 ['r']
      none "E1" _ exOutC9 (IsOutput.emit (IsOutput.emit IsOutput.nil)),
    (C9_amended_entry_stat_failure_behaviour (fun _ => false) ['r']).2 true
      "E2" ['x'] 0 none none .nil⟩

/-- C10 counterexample: (unix) with metadata collection on, a symlink's
record carries its non-zero `lstat` size, though the claim says only
regular files may carry a size; (windows) with metadata collection off
(`finder.stat = false`, never consulted by the windows walker), a regular
file's record still carries its size. -/
theorem C10_counterexample_size_populated_beyond_claim :
    (∃ r ∈ wrecs true ['r']
        (.dir ['r'] none (.ok 0) none
          (.cons (.other ['s'] .symlink (.ok (5, 2))) .nil)),
      r.rtype = 'l' ∧ r.size = 5) ∧
    (∃ r ∈ (walkW false false (fun _ => false) ['r'] (.ok 1)
        (.dir ['r'] 1 none none
          (.cons (.other ['f'] .file 7 3) .nil))).records,
      r.rtype = 'f' ∧ r.size = 7) := by decide

mutual
theorem wrecs_size_zero_of_nostat (p : Name) (t : FS) :
    ∀ r ∈ wrecs false p t, r.size = 0 := by
  cases t with
  | other n k st => intro r hr; simp at hr
  | dir n op f enm cs =>
    intro r hr
    cases enm with
    | some e =>
      simp only [wrecs_dir_enumFail, List.mem_singleton] at hr
      rw [hr]
    | none =>
      simp only [wrecs_dir, List.mem_cons] at hr
      rcases hr with rfl | hr
      · rfl
      · exact wrecsChildren_size_zero_of_nostat p cs r hr
theorem wrecsChildren_size_zero_of_nostat (p : Name) (l : FSL) :
    ∀ r ∈ wrecsChildren false p l, r.size = 0 := by
  cases l with
  | nil => intro r hr; simp at hr
  | cons c rest =>
    intro r hr
    cases c with
    | other nm k st =>
      simp only [wrecsChildren_other, List.mem_cons] at hr
      rcases hr with rfl | hr
      · simp [childRecord]
      · exact wrecsChildren_size_zero_of_nostat p rest r hr
    | dir nm op f enm ccs =>
      cases op with
      | some e =>
        simp only [wrecsChildren_dir_openFail, List.mem_cons] at hr
        rcases hr with rfl | hr
        · rfl
        · exact wrecsChildren_size_zero_of_nostat p rest r hr
      | none =>
        simp only [wrecsChildren_dir, List.mem_append] at hr
        rcases hr with hr | hr
        · exact wrecs_size_zero_of_nostat (childPath p nm)
            (FS.dir nm none f enm ccs) r hr
        · exact wrecsChildren_size_zero_of_nostat p rest r hr
end

theorem type2rune_ne_dir (k : FKind) : type2rune k ≠ 'd' := by
  cases k <;> simp [type2rune]

mutual
theorem wrecs_dir_size_zero (stat : Bool) (p : Name) (t : FS) :
    ∀ r ∈ wrecs stat p t, r.rtype = 'd' → r.size = 0 := by
  cases t with
  | other n k st => intro r hr; simp at hr
  | dir n op f enm cs =>
    intro r hr
    cases enm with
    | some e =>
      simp only [wrecs_dir_enumFail, List.mem_singleton] at hr
      rw [hr]
      intro
      rfl
    | none =>
      simp only [wrecs_dir, List.mem_cons] at hr
      rcases hr with rfl | hr
      · intro
        rfl
      · exact wrecsChildren_dir_size_zero stat p cs r hr
theorem wrecsChildren_dir_size_zero (stat : Bool) (p : Name) (l : FSL) :
    ∀ r ∈ wrecsChildren stat p l, r.rtype = 'd' → r.size = 0 := by
  cases l with
  | nil => intro r hr; simp at hr
  | cons c rest =>
    intro r hr
    cases c with
    | other nm k st =>
      simp only [wrecsChildren_other, List.mem_cons] at hr
      rcases hr with rfl | hr
      · intro hd
        rw [childRecord_rtype] at hd
        exact absurd hd (type2rune_ne_dir k)
      · exact wrecsChildren_dir_size_zero stat p rest r hr
    | dir nm op f enm ccs =>
      cases op with
      | some e =>
        simp only [wrecsChildren_dir_openFail, List.mem_cons] at hr
        rcases hr with rfl | hr
        · intro
          rfl
        · exact wrecsChildren_dir_size_zero stat p rest r hr
      | none =>
        simp only [wrecsChildren_dir, List.mem_append] at hr
        rcases hr with hr | hr
        · exact wrecs_dir_size_zero stat (childPath p nm)
            (FS.dir nm none f enm ccs) r hr
        · exact wrecsChildren_dir_size_zero stat p rest r hr
end

mutual
theorem walkWBody_size_file (canc stat : Bool) (adm : Name → Bool)
    (p : Name) (m : Nat) (t : WFS) :
    ∀ r ∈ (walkWBody canc stat adm p m t).records,
      r.size ≠ 0 → r.rtype = 'f' := by
  cases t with
  | other nm k esz emt => intro r hr; simp at hr
  | dir nm emt op enm cs =>
    intro r hr
    cases canc with
    | true => simp at hr
    | false =>
      cases enm with
      | some e =>
        simp only [walkWBody_dir_enumFail, WEvL.records_cons_w,
          WEv.records_send, WEv.records_closeH, WEvL.records_nil_w,
          List.append_nil, List.mem_singleton] at hr
        rw [hr]
        intro hs
        exact absurd rfl hs
      | none =>
        rw [walkWBody_dir, WEvL.records_cons_w, WEv.records_send,
          WEvL.records_append_w] at hr
        simp only [List.singleton_append, List.mem_cons, List.mem_append,
          WEvL.records_cons_w, WEv.records_closeH, WEvL.records_nil_w,
          List.append_nil, List.not_mem_nil, or_false] at hr
        rcases hr with rfl | hr
        · intro hs
          exact absurd rfl hs
        · exact walkWChildren_size_file false stat adm p cs r hr
theorem walkWChildren_size_file (canc stat : Bool) (adm : Name → Bool)
    (p : Name) (l : WFSL) :
    ∀ r ∈ (walkWChildren canc stat adm p l).records,
      r.size ≠ 0 → r.rtype = 'f' := by
  cases l with
  | nil => intro r hr; simp at hr
  | cons c rest =>
    intro r hr
    cases c with
    | other nm k esz emt =>
      simp only [walkWChildren_other, WEvL.records_cons_w, WEv.records_send,
        List.singleton_append, List.mem_cons] at hr
      rcases hr with rfl | hr
      · intro hs
        by_cases hk : (type2rune k == 'f') = true
        · exact eq_of_beq hk
        · exfalso
          apply hs
          simp only [Bool.not_eq_true] at hk
          simp [hk]
      · exact walkWChildren_size_file canc stat adm p rest r hr
    | dir nm emt2 op2 enm2 ccs =>
      cases op2 with
      | some e =>
        simp only [walkWChildren_dir_openFail, WEvL.records_cons_w,
          WEv.records_send, List.singleton_append, List.mem_cons] at hr
        rcases hr with rfl | hr
        · intro hs
          exact absurd rfl hs
        · exact walkWChildren_size_file canc stat adm p rest r hr
      | none =>
        simp only [walkWChildren_dir, WEvL.records_append_w,
          List.mem_append] at hr
        rcases hr with hr | hr
        · have hsub : r ∈ (walkWBody canc stat adm (childPath p nm) emt2
              (WFS.dir nm emt2 none enm2 ccs)).records := by
            by_cases ha : adm (childPath p nm)
            · simpa [ha] using hr
            · simpa [ha] using hr
          exact walkWBody_size_file canc stat adm (childPath p nm) emt2
            (WFS.dir nm emt2 none enm2 ccs) r hsub
        · exact walkWChildren_size_file canc stat adm p rest r hr
end

/-- C10 (amended): how the `Size` field is actually populated.  On the unix
backend, with metadata collection off every record's size is zero, and a
record of kind directory always has size zero — but with metadata on, any
successfully stat-ed non-directory child (symlink, device, ...) may carry a
non-zero size, not only regular files.  On the windows backend a non-zero
size implies a regular-file record, but it is filled regardless of the
metadata flag, which the windows walker never consults. -/
theorem C10_amended_size_field_population :
    (∀ (p : Name) (t : FS) (r : Record), r ∈ wrecs false p t → r.size = 0) ∧
    (∀ (stat : Bool) (p : Name) (t : FS) (r : Record), r ∈ wrecs stat p t →
      r.rtype = 'd' → r.size = 0) ∧
    (∀ (canc stat : Bool) (adm : Name → Bool) (p : Name) (m : Nat) (t : WFS)
      (r : Record), r ∈ (walkWBody canc stat adm p m t).records →
        r.size ≠ 0 → r.rtype = 'f') :=
  ⟨fun p t r hr => wrecs_size_zero_of_nostat p t r hr,
   fun stat p t r hr => wrecs_dir_size_zero stat p t r hr,
   fun canc stat adm p m t r hr => walkWBody_size_file canc stat adm p m t r hr⟩

/-- Witness for the amended C10 at concrete records. -/
theorem C10_amended_size_field_population_witness :
    (Record.mk ['r', '/', 'a'] 'f' 0 0 [] ∈
      wrecs false ['r'] exTreeC1 ∧
      (Record.mk ['r', '/', 'a'] 'f' 0 0 [] : Record).size = 0) ∧
    (Record.mk ['r'] 'd' 0 0 [] ∈ wrecs true ['r'] exTreeC1 ∧
      (Record.mk ['r'] 'd' 0 0 [] : Record).rtype = 'd' ∧
      (Record.mk ['r'] 'd' 0 0 [] : Record).size = 0) ∧
    (Record.mk ['r', '/', 'f'] 'f' 7 3 [] ∈
      (walkWBody false false (fun _ => false) ['r'] 1
        (.dir ['r'] 1 none none
          (.cons (.other ['f'] .file 7 3) .nil))).records ∧
      ((7 : Int) ≠ 0 → (Record.mk ['r', '/', 'f'] 'f' 7 3 [] : Record).rtype = 'f')) :=
  ⟨⟨by decide, C10_amended_size_field_population.1 ['r'] exTreeC1 _ (by decide)⟩,
   ⟨by decide, rfl, C10_amended_size_field_population.2.1 true ['r'] exTreeC1 _
      (by decide) rfl⟩,
   ⟨by decide, fun h => C10_amended_size_field_population.2.2 false false
      (fun _ => false) ['r'] 1
      (.dir ['r'] 1 none none (.cons (.other ['f'] .file 7 3) .nil))
      (Record.mk ['r', '/', 'f'] 'f' 7 3 []) (by decide) h⟩⟩

/-- `dirQueryInitialBuffer` from `walk_windows.go`. -/
def dirQueryInitialBuffer : Nat := 64 * 1024

/-- `dirQueryMaxBuffer` from `walk_windows.go` (current generation). -/
def dirQueryMaxBuffer : Nat := 1 <<< 30

/-- `fileInfoHeaderSize`: the byte offset of `FileName` in
`fileFullDirInformation` (4+4 for the two u32, 6×8 for the six i64, then
3×4 for the three u32 fields = 68). -/
def fileInfoHeaderSize : Nat := 68

/-- `os.FileMode` as `attributesToMode` can produce it: a symlink (reparse
point), or a combination of the directory and device bits (`0` = regular
file). -/
inductive GoMode : Type where
  | symlink
  | modeBits (isDir : Bool) (isDevice : Bool)
deriving DecidableEq, Repr

/-- `attributesToMode` from `walk_windows.go`: `FILE_ATTRIBUTE_REPARSE_POINT`
is `0x400`, `FILE_ATTRIBUTE_DIRECTORY` `0x10`, `FILE_ATTRIBUTE_DEVICE`
`0x40`. -/
def attributesToMode (attrs : Nat) : GoMode :=
  if attrs &&& 0x400 ≠ 0 then .symlink
  else .modeBits (attrs &&& 0x10 ≠ 0) (attrs &&& 0x40 ≠ 0)

/-- One directory entry as the kernel would encode it for the batched
query: the decoded name, the `FileAttributes`, `EndOfFile` and
`LastWriteTime` payload, and `enc`, the encoded record length in bytes
this entry occupies in the query buffer. -/
structure QEntry : Type where
  qname : Name
  attrs : Nat
  qsize : Int
  qmtime : Nat
  enc : Nat
deriving DecidableEq, Repr

/-- The `dirEntry` struct the windows enumerator builds per record. -/
structure DirEntryM : Type where
  dname : Name
  dmode : GoMode
  dsize : Int
  dmtime : Nat
deriving DecidableEq, Repr

/-- Building a `dirEntry` from a parsed record, with `.` and `..` filtered
by name as in the parse loop. -/
def entryOf (e : QEntry) : Option DirEntryM :=
  if e.qname = ['.'] ∨ e.qname = ['.', '.'] then none
  else some ⟨e.qname, attributesToMode e.attrs, e.qsize, e.qmtime⟩

/-- The greedy prefix of entries whose encoded records fit together in a
buffer of `cap` bytes (the batch a successful query returns). -/
def takeFit (cap : Nat) : List QEntry → List QEntry
  | [] => []
  | e :: rest => if e.enc ≤ cap then e :: takeFit (cap - e.enc) rest else []

/-- The buffer size after `k` doublings: the code starts at
`max dirQueryInitialBuffer (fileInfoHeaderSize + 2)` bytes and doubles on
every buffer-too-small retry, capping at `dirQueryMaxBuffer`; `bufSize`
after `k` retries is therefore `min (init·2^k) max`. -/
def qbuf (k : Nat) : Nat :=
  min (max dirQueryInitialBuffer (fileInfoHeaderSize + 2) * 2 ^ k)
    dirQueryMaxBuffer

theorem qbuf_pos (k : Nat) : 0 < qbuf k := by
  unfold qbuf
  have h2 : 0 < 2 ^ k := Nat.pos_pow_of_pos k (by omega)
  have : 0 < max dirQueryInitialBuffer (fileInfoHeaderSize + 2) := by
    simp [dirQueryInitialBuffer]
  refine lt_min (Nat.mul_pos this h2) ?_
  simp [dirQueryMaxBuffer]

theorem qbuf_le_max (k : Nat) : qbuf k ≤ dirQueryMaxBuffer := Nat.min_le_right _ _

theorem qbuf_lt_succ {k : Nat} (h : qbuf k < dirQueryMaxBuffer) :
    qbuf k < qbuf (k + 1) := by
  have hi : 0 < max dirQueryInitialBuffer (fileInfoHeaderSize + 2) := by
    simp [dirQueryInitialBuffer]
  have ha : max dirQueryInitialBuffer (fileInfoHeaderSize + 2) * 2 ^ k <
      dirQueryMaxBuffer := by
    by_contra hge
    push_neg at hge
    rw [qbuf, Nat.min_eq_right hge] at h
    omega
  have hq : qbuf k = max dirQueryInitialBuffer (fileInfoHeaderSize + 2) * 2 ^ k :=
    Nat.min_eq_left (Nat.le_of_lt ha)
  rw [hq, qbuf, pow_succ, ← Nat.mul_assoc]
  refine lt_min ?_ ha
  have h2 : 0 < 2 ^ k := Nat.pos_pow_of_pos k (by omega)
  have := Nat.mul_pos hi h2
  omega

/-- The query loop of `enumerateDirectory` (`walk_windows.go` lines
170-222) over a modelled kernel.  The kernel state is the cursor into the
directory's entry list; a query returns `io.EOF` past the last entry,
reports buffer-too-small (zero bytes written, so the kernel cursor does not
move) when the next record exceeds the buffer, and otherwise fills the
maximal fitting prefix of the remaining entries.  The code's `restart`
flag (`RestartScan`) is `true` only while no entry has been consumed, when
restarting is a no-op, so the kernel position is `cursor` throughout and
the flag needs no separate modelling.  On buffer-too-small the code fails
if the buffer has already reached `dirQueryMaxBuffer`, else doubles
(capped) and retries the same query without advancing; parsed entries
accumulate with `.`/`..` filtered. -/
def enumGo (dirents : List QEntry) (k : Nat) (cursor : Nat)
    (entries : List DirEntryM) : Res (List DirEntryM) :=
  match hd : dirents.drop cursor with
  | [] => .ok entries
  | e :: rest =>
    if hfit : e.enc ≤ qbuf k then
      enumGo dirents k (cursor + (takeFit (qbuf k) (e :: rest)).length)
        (entries ++ (takeFit (qbuf k) (e :: rest)).filterMap entryOf)
    else
      if qbuf k ≥ dirQueryMaxBuffer then
        .err "NtQueryDirectoryFile: entry larger than buffer"
      else enumGo dirents (k + 1) cursor entries
  termination_by (dirents.length - cursor, dirQueryMaxBuffer - qbuf k)
  decreasing_by
  · apply Prod.Lex.left
    have h1 : 1 ≤ (takeFit (qbuf k) (e :: rest)).length := by
      rw [takeFit]
      rw [if_pos hfit]
      simp
    have h2 := congrArg List.length hd
    rw [List.length_drop] at h2
    simp only [List.length_cons] at h2
    omega
  · apply Prod.Lex.right
    have hlt := qbuf_lt_succ (k := k) (by omega)
    have hle := qbuf_le_max (k + 1)
    omega

/-- `enumerateDirectory` (`walk_windows.go` lines 161-225) over the
modelled kernel: initial buffer exponent 0, cursor at the first entry,
empty accumulator. -/
def enumerateDirectoryM (dirents : List QEntry) : Res (List DirEntryM) :=
  enumGo dirents 0 0 []

theorem takeFit_append_drop : ∀ (cap : Nat) (l : List QEntry),
    takeFit cap l ++ l.drop (takeFit cap l).length = l
  | _, [] => rfl
  | cap, e :: rest => by
    rw [takeFit]
    by_cases h : e.enc ≤ cap
    · rw [if_pos h]
      simp only [List.length_cons, List.drop_succ_cons, List.cons_append]
      rw [takeFit_append_drop (cap - e.enc) rest]
    · rw [if_neg h]
      simp

theorem takeFit_mem_le : ∀ (cap : Nat) (l : List QEntry) (e : QEntry),
    e ∈ takeFit cap l → e.enc ≤ cap
  | cap, [], e => by intro h; simp [takeFit] at h
  | cap, e0 :: rest, e => by
    intro h
    rw [takeFit] at h
    by_cases h0 : e0.enc ≤ cap
    · rw [if_pos h0] at h
      rcases List.mem_cons.mp h with rfl | h
      · exact h0
      · exact Nat.le_trans (takeFit_mem_le (cap - e0.enc) rest e h)
          (Nat.sub_le _ _)
    · rw [if_neg h0] at h
      simp at h

theorem enumGo_eq_nil {dirents : List QEntry} {k cursor : Nat}
    {entries : List DirEntryM} (hd : dirents.drop cursor = []) :
    enumGo dirents k cursor entries = .ok entries := by
  rw [enumGo.eq_def]
  split
  · rfl
  · next e rest heq =>
      rw [hd] at heq
      cases heq

theorem enumGo_eq_fit {dirents : List QEntry} {k cursor : Nat}
    {entries : List DirEntryM} {e : QEntry} {rest : List QEntry}
    (hd : dirents.drop cursor = e :: rest) (hfit : e.enc ≤ qbuf k) :
    enumGo dirents k cursor entries =
      enumGo dirents k (cursor + (takeFit (qbuf k) (e :: rest)).length)
        (entries ++ (takeFit (qbuf k) (e :: rest)).filterMap entryOf) := by
  rw [enumGo.eq_def]
  split
  · next heq =>
      rw [hd] at heq
      cases heq
  · next e2 rest2 heq =>
      rw [hd] at heq
      injection heq with h1 h2
      subst h1
      subst h2
      rw [dif_pos hfit]

theorem enumGo_eq_overflow {dirents : List QEntry} {k cursor : Nat}
    {entries : List DirEntryM} {e : QEntry} {rest : List QEntry}
    (hd : dirents.drop cursor = e :: rest) (hfit : ¬ e.enc ≤ qbuf k)
    (hmax : qbuf k ≥ dirQueryMaxBuffer) :
    enumGo dirents k cursor entries =
      .err "NtQueryDirectoryFile: entry larger than buffer" := by
  rw [enumGo.eq_def]
  split
  · next heq =>
      rw [hd] at heq
      cases heq
  · next e2 rest2 heq =>
      rw [hd] at heq
      injection heq with h1 h2
      subst h1
      subst h2
      rw [dif_neg hfit, if_pos hmax]

theorem enumGo_eq_grow {dirents : List QEntry} {k cursor : Nat}
    {entries : List DirEntryM} {e : QEntry} {rest : List QEntry}
    (hd : dirents.drop cursor = e :: rest) (hfit : ¬ e.enc ≤ qbuf k)
    (hmax : ¬ qbuf k ≥ dirQueryMaxBuffer) :
    enumGo dirents k cursor entries = enumGo dirents (k + 1) cursor entries := by
  rw [enumGo.eq_def]
  split
  · next heq =>
      rw [hd] at heq
      cases heq
  · next e2 rest2 heq =>
      rw [hd] at heq
      injection heq with h1 h2
      subst h1
      subst h2
      rw [dif_neg hfit, if_neg hmax]

theorem enumGo_all_fit (dirents : List QEntry)
    (hall : ∀ e ∈ dirents, e.enc ≤ dirQueryMaxBuffer)
    (k cursor : Nat) (entries : List DirEntryM) :
    enumGo dirents k cursor entries =
      .ok (entries ++ (dirents.drop cursor).filterMap entryOf) := by
  induction k, cursor, entries using enumGo.induct dirents with
  | case1 k cursor entries hd =>
    rw [enumGo_eq_nil hd, hd]
    simp
  | case2 k cursor entries e rest hd hfit ih =>
    rw [enumGo_eq_fit hd hfit, ih]
    have hdd : dirents.drop (cursor + (takeFit (qbuf k) (e :: rest)).length) =
        (e :: rest).drop (takeFit (qbuf k) (e :: rest)).length := by
      rw [← hd, List.drop_drop, Nat.add_comm]
    rw [hdd]
    conv_rhs => rw [hd, ← takeFit_append_drop (qbuf k) (e :: rest)]
    rw [List.filterMap_append, List.append_assoc]
  | case3 k cursor entries e rest hd hfit hmax =>
    exfalso
    have he : e ∈ dirents :=
      List.mem_of_mem_drop (hd ▸ List.mem_cons_self e rest)
    have h1 := hall e he
    omega
  | case4 k cursor entries e rest hd hfit hmax ih =>
    rw [enumGo_eq_grow hd hfit hmax, ih]

theorem enumGo_oversized (dirents : List QEntry) (k cursor : Nat)
    (entries : List DirEntryM)
    (hbig : ∃ e ∈ dirents.drop cursor, dirQueryMaxBuffer < e.enc) :
    ∃ msg, enumGo dirents k cursor entries = .err msg := by
  induction k, cursor, entries using enumGo.induct dirents with
  | case1 k cursor entries hd =>
    rw [hd] at hbig
    simp at hbig
  | case2 k cursor entries e rest hd hfit ih =>
    rw [enumGo_eq_fit hd hfit]
    refine ih ?_
    obtain ⟨e0, he0, hbig0⟩ := hbig
    have hdd : dirents.drop (cursor + (takeFit (qbuf k) (e :: rest)).length) =
        (e :: rest).drop (takeFit (qbuf k) (e :: rest)).length := by
      rw [← hd, List.drop_drop, Nat.add_comm]
    refine ⟨e0, ?_, hbig0⟩
    rw [hdd]
    rw [hd] at he0
    have hsplit := takeFit_append_drop (qbuf k) (e :: rest)
    have he0' : e0 ∈ takeFit (qbuf k) (e :: rest) ++
        (e :: rest).drop (takeFit (qbuf k) (e :: rest)).length := by
      rw [hsplit]
      exact he0
    rcases List.mem_append.mp he0' with hin | hin
    · exfalso
      have := takeFit_mem_le (qbuf k) (e :: rest) e0 hin
      have := qbuf_le_max k
      omega
    · exact hin
  | case3 k cursor entries e rest hd hfit hmax =>
    exact ⟨_, enumGo_eq_overflow hd hfit hmax⟩
  | case4 k cursor entries e rest hd hfit hmax ih =>
    rw [enumGo_eq_grow hd hfit hmax]
    exact ih hbig

/-- C3: the raw batched-query enumerator's buffer growth is transparent up
to the hard cap: whenever every entry's encoded record fits within
`dirQueryMaxBuffer`, the enumerator returns exactly the directory's entries
(in order, `.`/`..` filtered) with no error observable by the caller —
buffer-too-small retries double the buffer (capped) and never advance past
consumed entries, by construction of `enumGo`; and the enumerator fails
(only) when some entry exceeds the hard cap, the case in which the buffer
has already reached `dirQueryMaxBuffer` and the query still reports
buffer-too-small. -/
theorem C3_buffer_growth_transparent_up_to_cap (dirents : List QEntry) :
    ((∀ e ∈ dirents, e.enc ≤ dirQueryMaxBuffer) →
      enumerateDirectoryM dirents = .ok (dirents.filterMap entryOf)) ∧
    ((∃ e ∈ dirents, dirQueryMaxBuffer < e.enc) →
      ∃ msg, enumerateDirectoryM dirents = .err msg) := by
  constructor
  · intro hall
    rw [enumerateDirectoryM, enumGo_all_fit dirents hall 0 0 []]
    simp
  · intro hbig
    exact enumGo_oversized dirents 0 0 [] (by simpa using hbig)

/-- An entry whose encoded record (100000 bytes) overflows the initial
64 KiB buffer but fits under the 1 GiB cap. -/
def exEntryBig : QEntry := ⟨['a'], 0, 4, 9, 100000⟩

/-- Witness for C3: the oversized-for-the-initial-buffer entry is returned
without error after growth; an entry beyond the hard cap fails. -/
theorem C3_buffer_growth_transparent_up_to_cap_witness :
    ((∀ e ∈ [exEntryBig], e.enc ≤ dirQueryMaxBuffer) ∧
      enumerateDirectoryM [exEntryBig] = .ok ([exEntryBig].filterMap entryOf)) ∧
    ((∃ e ∈ [QEntry.mk ['b'] 0 0 0 (dirQueryMaxBuffer + 1)],
        dirQueryMaxBuffer < e.enc) ∧
      ∃ msg, enumerateDirectoryM
        [QEntry.mk ['b'] 0 0 0 (dirQueryMaxBuffer + 1)] = .err msg) :=
  ⟨⟨by decide, (C3_buffer_growth_transparent_up_to_cap [exEntryBig]).1
      (by decide)⟩,
   ⟨by decide, (C3_buffer_growth_transparent_up_to_cap
      [QEntry.mk ['b'] 0 0 0 (dirQueryMaxBuffer + 1)]).2 (by decide)⟩⟩

/-- Little-endian 16-bit read from a byte oracle. -/
def readU16 (b : Nat → Nat) (i : Nat) : Nat := b i + 256 * b (i + 1)

/-- Little-endian 32-bit read from a byte oracle. -/
def readU32 (b : Nat → Nat) (i : Nat) : Nat :=
  b i + 256 * b (i + 1) + 65536 * b (i + 2) + 16777216 * b (i + 3)

/-- Little-endian 64-bit read from a byte oracle. -/
def readU64 (b : Nat → Nat) (i : Nat) : Nat :=
  readU32 b i + 4294967296 * readU32 b (i + 4)

/-- The data the batch parser extracts per `fileFullDirInformation` record:
the UTF-16 code units of the name (`FileNameLength/2` of them, as
`unsafe.Slice(&info.FileName[0], nameLen)` reads them), `FileAttributes`
(offset 56), `EndOfFile` (offset 40) and `LastWriteTime` (offset 24), raw
64-bit values. -/
structure PEntry : Type where
  nameUnits : List Nat
  attrs : Nat
  eof : Nat
  lastWrite : Nat
deriving DecidableEq, Repr

/-- The name code units of the record at `offset`: `FileNameLength` sits at
offset 60 in the header, the name itself at offset 68
(`fileInfoHeaderSize`). -/
def nameU (b : Nat → Nat) (offset : Nat) : List Nat :=
  (List.range (readU32 b (offset + 60) / 2)).map
    (fun i => readU16 b (offset + 68 + 2 * i))

/-- The batch-parsing loop of the current `enumerateDirectory`
(`walk_windows.go` lines 192-217) over a chunk of `n` retrieved bytes read
through the oracle `b`: while `offset < n`, stop with a framing error if
fewer than `fileInfoHeaderSize` bytes remain or if the declared
`FileNameLength` overruns the remaining bytes (the `nameBytes < 0` check is
vacuous over `Nat`); otherwise extract the record (filtering `.` and `..`,
unit 46 being `'.'`), stop normally when `NextEntryOffset` is zero, and
advance by it otherwise. -/
def parseLoop (b : Nat → Nat) (n : Nat) (offset : Nat) : Res (List PEntry) :=
  if h : offset < n then
    if n - offset < fileInfoHeaderSize then
      .err "NtQueryDirectoryFile returned truncated data"
    else if n - offset - fileInfoHeaderSize < readU32 b (offset + 60) then
      .err "NtQueryDirectoryFile returned truncated data"
    else
      match (if hz : readU32 b offset = 0 then Res.ok []
        else parseLoop b n (offset + readU32 b offset)) with
      | .err m => .err m
      | .ok es => .ok
          (if nameU b offset = [46] ∨ nameU b offset = [46, 46] then es
           else PEntry.mk (nameU b offset) (readU32 b (offset + 56))
             (readU64 b (offset + 40)) (readU64 b (offset + 24)) :: es)
  else .ok []
  termination_by n - offset
  decreasing_by
  have := Nat.pos_of_ne_zero hz
  omega

/-- Parsing one retrieved batch: the loop from offset `0` over `n` bytes
(`chunk := buffer[:n]`). -/
def parseChunk (b : Nat → Nat) (n : Nat) : Res (List PEntry) := parseLoop b n 0

theorem parseLoop_locality (b1 b2 : Nat → Nat) (n : Nat)
    (hagree : ∀ i < n, b1 i = b2 i) (offset : Nat) :
    parseLoop b1 n offset = parseLoop b2 n offset := by
  rw [parseLoop.eq_def]
  conv_rhs => rw [parseLoop.eq_def]
  by_cases h : offset < n
  · rw [dif_pos h, dif_pos h]
    by_cases h1 : n - offset < fileInfoHeaderSize
    · rw [if_pos h1, if_pos h1]
    · have hb68 : offset + fileInfoHeaderSize ≤ n := by omega
      rw [fileInfoHeaderSize] at hb68
      have hU32 : ∀ j, j + 4 ≤ n → readU32 b1 j = readU32 b2 j := by
        intro j hj
        unfold readU32
        rw [hagree j (by omega), hagree (j + 1) (by omega),
          hagree (j + 2) (by omega), hagree (j + 3) (by omega)]
      have hU64 : ∀ j, j + 8 ≤ n → readU64 b1 j = readU64 b2 j := by
        intro j hj
        unfold readU64
        rw [hU32 j (by omega), hU32 (j + 4) (by omega)]
      have hnb : readU32 b1 (offset + 60) = readU32 b2 (offset + 60) :=
        hU32 _ (by omega)
      have hneo : readU32 b1 offset = readU32 b2 offset := hU32 _ (by omega)
      have hattrs : readU32 b1 (offset + 56) = readU32 b2 (offset + 56) :=
        hU32 _ (by omega)
      have heof : readU64 b1 (offset + 40) = readU64 b2 (offset + 40) :=
        hU64 _ (by omega)
      have hmt : readU64 b1 (offset + 24) = readU64 b2 (offset + 24) :=
        hU64 _ (by omega)
      rw [if_neg h1, if_neg h1]
      by_cases h2 : n - offset - fileInfoHeaderSize < readU32 b1 (offset + 60)
      · have h2b : n - offset - fileInfoHeaderSize < readU32 b2 (offset + 60) := by
          rw [← hnb]
          exact h2
        rw [if_pos h2, if_pos h2b]
      · have h2b : ¬ n - offset - fileInfoHeaderSize < readU32 b2 (offset + 60) := by
          rw [← hnb]
          exact h2
        have hunits : nameU b1 offset = nameU b2 offset := by
          unfold nameU
          rw [hnb]
          refine List.map_congr_left ?_
          intro i hi
          rw [List.mem_range] at hi
          have hnble : readU32 b2 (offset + 60) ≤ n - offset - fileInfoHeaderSize := by
            omega
          rw [fileInfoHeaderSize] at hnble
          unfold readU16
          have hib : offset + 68 + 2 * i + 1 < n := by omega
          rw [hagree _ (by omega), hagree _ hib]
        rw [if_neg h2, if_neg h2b, hneo, hunits, hattrs, heof, hmt]
        by_cases hz : readU32 b2 offset = 0
        · rw [dif_pos hz, dif_pos hz]
        · rw [dif_neg hz, dif_neg hz,
            parseLoop_locality b1 b2 n hagree (offset + readU32 b2 offset)]
  · rw [dif_neg h, dif_neg h]
  termination_by n - offset
  decreasing_by
  have := Nat.pos_of_ne_zero hz
  omega

/-- C4: the batch parser's framing checks.  (1) The parse result depends
only on the `n` retrieved bytes: no header field or name byte outside the
retrieved count is ever read.  (2) A batch with fewer bytes than the fixed
header size yields a framing error, never a silent truncation.  (3) A
record whose declared name length overruns the bytes available in the batch
yields a framing error. -/
theorem C4_batch_parser_framing_and_bounded_reads :
    (∀ (b1 b2 : Nat → Nat) (n : Nat), (∀ i < n, b1 i = b2 i) →
      ∀ offset : Nat, parseLoop b1 n offset = parseLoop b2 n offset) ∧
    (∀ (b : Nat → Nat) (n : Nat), 0 < n → n < fileInfoHeaderSize →
      parseChunk b n = .err "NtQueryDirectoryFile returned truncated data") ∧
    (∀ (b : Nat → Nat) (n offset : Nat), offset < n →
      ¬ n - offset < fileInfoHeaderSize →
      n - offset - fileInfoHeaderSize < readU32 b (offset + 60) →
      parseLoop b n offset =
        .err "NtQueryDirectoryFile returned truncated data") := by
  refine ⟨parseLoop_locality, ?_, ?_⟩
  · intro b n hn hshort
    rw [parseChunk, parseLoop.eq_def, dif_pos hn, if_pos (by omega)]
  · intro b n offset hlt hshort hover
    rw [parseLoop.eq_def, dif_pos hlt, if_neg hshort, if_pos hover]

/-- Witness for C4 at concrete byte oracles: an oracle pair agreeing on the
first 10 bytes parses identically; a 10-byte batch is a framing error; a
68-byte batch whose `FileNameLength` field declares 200 name bytes is a
framing error. -/
theorem C4_batch_parser_framing_and_bounded_reads_witness :
    ((∀ i < 10, (fun _ : Nat => 7) i = (fun j : Nat => if j < 10 then 7 else 99) i) ∧
      parseLoop (fun _ => 7) 10 0 =
        parseLoop (fun j => if j < 10 then 7 else 99) 10 0) ∧
    ((0 : Nat) < 10 ∧ 10 < fileInfoHeaderSize ∧
      parseChunk (fun _ => 7) 10 =
        .err "NtQueryDirectoryFile returned truncated data") ∧
    ((0 : Nat) < 68 ∧ ¬ (68 : Nat) - 0 < fileInfoHeaderSize ∧
      68 - 0 - fileInfoHeaderSize < readU32 (fun j => if j = 60 then 200 else 0) (0 + 60) ∧
      parseLoop (fun j => if j = 60 then 200 else 0) 68 0 =
        .err "NtQueryDirectoryFile returned truncated data") :=
  ⟨⟨by decide, C4_batch_parser_framing_and_bounded_reads.1 _ _ 10 (by decide) 0⟩,
   ⟨by decide, by decide,
     C4_batch_parser_framing_and_bounded_reads.2.1 _ 10 (by decide) (by decide)⟩,
   ⟨by decide, by decide, by decide,
     C4_batch_parser_framing_and_bounded_reads.2.2 _ 68 0 (by decide)
       (by decide) (by decide)⟩⟩

/-- `ExitError` from the driver. -/
def ExitError : Nat := 1

/-- `ExitOk` from the driver. -/
def ExitOk : Nat := 0

/-- The consumer loop of the current `main` (the CSV generation) as it
affects the exit flag.  Go's `record, ok := <-records` inside the loop body
declares a new variable `ok` that shadows the `ok := true` declared before
the loop; the `ok = false` executed when a record carries errors writes
that inner variable, which is rebound on the next iteration, so the outer
flag is never written.  `innerOk` mirrors the shadowing variable; the
function returns the outer flag's final value. -/
def consumeLoop (outerOk : Bool) : List Record → Bool
  | [] => outerOk
  | r :: rest =>
      let innerOk := true
      let innerOk := if r.errors.isEmpty then innerOk else false
      consumeLoop outerOk rest

/-- `main`'s exit status as a function of the root-open outcome and the
drained record stream, for runs whose CSV writer succeeds: a failing root
open `fail`s with `ExitError` before any walking; otherwise the stream is
drained completely and the process exits with `ExitError` iff the outer
`ok` flag ended up false.  Cancellation cannot surface here: the walker
goroutine returns `nil` to the errgroup, so `g.Wait()` is always `nil`. -/
def mainExitCode (rootOpen : Option ErrMsg) (records : List Record) : Nat :=
  match rootOpen with
  | some _ => ExitError
  | none => if consumeLoop true records then ExitOk else ExitError

theorem consumeLoop_const (b : Bool) : ∀ l : List Record, consumeLoop b l = b
  | [] => rfl
  | r :: rest => by
    rw [consumeLoop]
    exact consumeLoop_const b rest

/-- C8: the exit-code claim fails on the code.  Because the loop-local `ok`
shadows the outer flag, a run whose stream contains a record carrying an
error still exits `ExitOk`; indeed every run with a successful root open
exits `ExitOk` regardless of the records (and of cancellation, which the
walkers never report to the errgroup).  Only the root-open-failure third of
the claim holds. -/
theorem C8_run_with_error_records_still_exits_zero :
    (mainExitCode none [Record.mk ['r'] 'd' 0 0 ["boom"]] = ExitOk ∧
      (Record.mk ['r'] 'd' 0 0 ["boom"]).errors ≠ [] ∧
      ExitOk ≠ ExitError) ∧
    (∀ records : List Record, mainExitCode none records = ExitOk) ∧
    (∀ e : ErrMsg, ∀ records : List Record,
      mainExitCode (some e) records = ExitError) := by
  refine ⟨by decide, ?_, ?_⟩
  · intro records
    rw [mainExitCode, consumeLoop_const]
    rfl
  · intro e records
    rfl

/-- C7: the admission decision is a non-blocking try-acquire taken at each
successfully opened subdirectory, and refusal falls back to a synchronous
nested call on the current task's stack: (1) a refused decision splices the
subdirectory's whole traversal inline into the parent's own trace, with no
spawn event; (2) with every request refused the entire tree is traversed by
the root task alone — zero tasks spawned — and (3) that single task's
output is the full record list, deterministically; moreover (4) the records
produced are the same under every admission schedule, so refusal never
loses or blocks work. -/
theorem C7_admission_refusal_inlines_without_blocking
    (stat : Bool) (p : Name) (t : FS) :
    (∀ (adm : Name → Bool) (nm : Name) (f : Res Nat) (enm : Option ErrMsg)
      (ccs : FSL) (rest : FSL), adm (childPath p nm) = false →
        walkChildren stat adm p (.cons (.dir nm none f enm ccs) rest) =
          (walkU stat adm (childPath p nm) (.dir nm none f enm ccs)).append
            (walkChildren stat adm p rest)) ∧
    (walkU stat (fun _ => false) p t).spawnCount = 0 ∧
    (∀ out, IsOutput (walkU stat (fun _ => false) p t) out →
      out = (walkU stat (fun _ => false) p t).records) ∧
    (∀ adm : Name → Bool,
      (walkU stat adm p t).records = (walkU stat (fun _ => false) p t).records) := by
  refine ⟨?_, walkU_refused_spawnCount stat p t, ?_, ?_⟩
  · intro adm nm f enm ccs rest ha
    simp [ha]
  · intro out ho
    exact isOutput_of_spawnFree ho (walkU_refused_spawnCount stat p t)
  · intro adm
    rw [walkU_records, walkU_records]

/-- Witness for C7 at a concrete tree, refused decision and output. -/
theorem C7_admission_refusal_inlines_without_blocking_witness :
    ((fun _ : Name => false) (childPath ['r'] ['b']) = false ∧
      IsOutput (walkU false (fun _ => false) ['r'] exTreeC2) exOutC2) ∧
    (walkChildren false (fun _ => false) ['r']
        (.cons (.dir ['b'] none (.ok 0) (some "EIO") .nil) .nil) =
      (walkU false (fun _ => false) (childPath ['r'] ['b'])
          (.dir ['b'] none (.ok 0) (some "EIO") .nil)).append
        (walkChildren false (fun _ => false) ['r'] .nil) ∧
      exOutC2 = (walkU false (fun _ => false) ['r'] exTreeC2).records) :=
  ⟨⟨rfl, IsOutput.emit (IsOutput.emit (IsOutput.emit IsOutput.nil))⟩,
    (C7_admission_refusal_inlines_without_blocking false ['r'] exTreeC2).1
      (fun _ => false) ['b'] (.ok 0) (some "EIO") .nil .nil rfl,
    (C7_admission_refusal_inlines_without_blocking false ['r'] exTreeC2).2.2.1
      exOutC2 (IsOutput.emit (IsOutput.emit (IsOutput.emit IsOutput.nil)))⟩
